import Mathlib

/-!
Shallow embedding of the NCZarr per-variable chunk cache (src/libnczarr/zxcache.c)
and verification of the specification's claims about it.

Modelling conventions:
* machine bytes are `Nat`s, buffers are `List Nat`, C strings are `List Char`;
* the `ncxcache` container (hash index + recency list; its source is not part of
  this repository snapshot) is modelled from the spec as an association list in
  MRU-first order whose values are entry ids;
* cache entries are heap-allocated in C and shared by pointer between the hash
  index and the `mru` list; the embedding gives each entry a numeric id and keeps
  a heap (id -> entry), with `mru` and the hash index holding ids;
* the object store (`nczmap`, also external to this snapshot) is modelled from
  the spec as a path-indexed association list plus failure predicates, with a
  log of attempted writes.
-/

namespace NCZX

/-- NetCDF status codes used by the cache code. `NC_EEMPTY` doubles as the
store's not-found outcome and as the ChunkCreated signal surfaced by read. -/
inductive Stat where
  | NC_NOERR
  | NC_EEMPTY
  | NC_ENOTFOUND
  | NC_EINVAL
  | NC_ENOMEM
  | NC_EIO
  | NC_EINTERNAL
deriving DecidableEq

/-- Fuel-driven core of decimal printing; mirrors `snprintf(sindex,...,"%lu",v)`
in NCZ_buildchunkkey. The fuel is always called with at least the value, so the
fuel-exhausted arm is never reached for meaningful inputs. -/
def decAux : Nat → Nat → List Char → List Char
  | 0, n, acc => Nat.digitChar (n % 10) :: acc
  | fuel + 1, n, acc =>
    if n < 10 then Nat.digitChar n :: acc
    else decAux fuel (n / 10) (Nat.digitChar (n % 10) :: acc)

/-- Decimal representation of a natural number, most significant digit first;
the embedding of `snprintf("%lu")` used by the chunk key builder. -/
def decRepr (n : Nat) : List Char := decAux n n []

/-- Value denoted by a digit string (base 10); used to state that `decRepr`
really prints its argument in base 10. -/
def decVal (cs : List Char) : Nat :=
  cs.foldl (fun a c => a * 10 + (c.toNat - 48)) 0

/-- Joining a list of strings with a single-character separator: the shape
`x0 <sep> x1 <sep> ... <sep> xk` from the Zarr chunk-key convention. -/
def joinSep (s : Char) : List (List Char) → List Char
  | [] => []
  | [x] => x
  | x :: y :: t => x ++ s :: joinSep s (y :: t)

/-- Modelled from the spec: the legal dimension separators are '.' and '/'
(`islegaldimsep` lives in a header outside this snapshot). -/
def islegaldimsep (c : Char) : Bool := c = '.' || c = '/'

/-- NCZ_buildchunkkey: iterate r over the indices, prepending the separator
for every r > 0 and appending the decimal form of the r-th index. -/
def NCZ_buildchunkkey (chunkindices : List Nat) (dimsep : Char) : List Char :=
  (chunkindices.enum).foldl
    (fun key p => (if p.1 > 0 then key ++ [dimsep] else key) ++ decRepr p.2) []

/-- struct ChunkKey: the variable's object-store prefix and the chunk key. -/
structure ChunkKey where
  varkey : List Char
  chunkkey : List Char
deriving DecidableEq

/-- Modelled from the spec: NCZ_chunkpath (outside this snapshot) composes the
full object path `<varkey><sep><chunkkey>`. -/
def NCZ_chunkpath (key : ChunkKey) (sep : Char) : List Char :=
  key.varkey ++ sep :: key.chunkkey

/-- struct NCZCacheEntry: indices, container hash key, object key, dirty bit,
and the owned data buffer. -/
structure NCZCacheEntry where
  indices : List Nat
  hashkey : List Nat
  key : ChunkKey
  modified : Bool
  data : List Nat
deriving DecidableEq

/-- Modelled from the spec: `ncxcachekey` digests the index tuple into the
container's 64-bit lookup key; modelled injectively (the tuple itself),
abstracting from hash collisions. -/
def ncxcachekey (indices : List Nat) : List Nat := indices

/-- The object store contents: path-indexed association list of chunk blobs. -/
def storeGet : List (List Char × List Nat) → List Char → Option (List Nat)
  | [], _ => none
  | (p, b) :: t, path => if p = path then some b else storeGet t path

def storePut : List (List Char × List Nat) → List Char → List Nat →
    List (List Char × List Nat)
  | [], path, bytes => [(path, bytes)]
  | (p, b) :: t, path, bytes =>
    if p = path then (p, bytes) :: t else (p, b) :: storePut t path bytes

/-- Modelled from the spec: the abstract object store (`nczmap`) consumed by
the cache. `failRead`/`failWrite` select the paths on which the store fails
with an I/O error; `log` records every attempted write call (path, bytes). -/
structure ZMap where
  objects : List (List Char × List Nat)
  failRead : List Char → Bool
  failWrite : List Char → Bool
  log : List (List Char × List Nat)

/-- Modelled from the spec: store read. Not-found is the first-class
`NC_EEMPTY` outcome; the destination buffer is left unchanged on failure. -/
def nczmap_read (map : ZMap) (path : List Char) (buf : List Nat) :
    Stat × List Nat :=
  if map.failRead path then (Stat.NC_EIO, buf)
  else
    match storeGet map.objects path with
    | some bytes => (Stat.NC_NOERR, bytes)
    | none => (Stat.NC_EEMPTY, buf)

/-- Modelled from the spec: store write; every call is logged, and the object
body is updated only on success. -/
def nczmap_write (map : ZMap) (path : List Char) (data : List Nat) :
    Stat × ZMap :=
  if map.failWrite path then
    (Stat.NC_EIO, { map with log := map.log ++ [(path, data)] })
  else
    (Stat.NC_NOERR,
      { map with objects := storePut map.objects path data,
                 log := map.log ++ [(path, data)] })

/-- Heap of allocated cache entries, keyed by entry id (pointer model). -/
def heapGet : List (Nat × NCZCacheEntry) → Nat → Option NCZCacheEntry
  | [], _ => none
  | (i, e) :: t, id => if i = id then some e else heapGet t id

def heapSet : List (Nat × NCZCacheEntry) → Nat → NCZCacheEntry →
    List (Nat × NCZCacheEntry)
  | [], _, _ => []
  | (i, e) :: t, id, e2 =>
    if i = id then (i, e2) :: t else (i, e) :: heapSet t id e2

def heapRemove : List (Nat × NCZCacheEntry) → Nat → List (Nat × NCZCacheEntry)
  | [], _ => []
  | (i, e) :: t, id => if i = id then t else (i, e) :: heapRemove t id

/-- Modelled from the spec: non-promoting lookup in the indexed LRU container
(`ncxcachelookup`); the container is kept in MRU-first order. -/
def ncxcachelookup : List (List Nat × Nat) → List Nat → Option Nat
  | [], _ => none
  | (k, id) :: t, key => if k = key then some id else ncxcachelookup t key

/-- Modelled from the spec: O(1) removal by key (`ncxcacheremove`), returning
ownership of the stored id. -/
def ncxcacheremove : List (List Nat × Nat) → List Nat →
    Option Nat × List (List Nat × Nat)
  | [], _ => (none, [])
  | (k, id) :: t, key =>
    if k = key then (some id, t)
    else
      let r := ncxcacheremove t key
      (r.1, (k, id) :: r.2)

/-- Modelled from the spec: promote the keyed entry to MRU (`ncxcachetouch`). -/
def ncxcachetouch (xc : List (List Nat × Nat)) (key : List Nat) :
    List (List Nat × Nat) :=
  match ncxcacheremove xc key with
  | (some id, t) => (key, id) :: t
  | (none, _) => xc

/-- Modelled from the spec: insertion at MRU (`ncxcacheinsert`). -/
def ncxcacheinsert (xc : List (List Nat × Nat)) (key : List Nat) (id : Nat) :
    List (List Nat × Nat) :=
  (key, id) :: xc

/-- struct NCZChunkCache. `no_write` embeds the owning file's read-only flag
(`file->no_write`), `varkey` the variable's object prefix (`NCZ_varkey`),
`next` the allocator counter for entry ids. -/
structure NCZChunkCache where
  ndims : Nat
  varkey : List Char
  dimension_separator : Char
  chunksize : Nat
  maxentries : Nat
  fillchunk : Option (List Nat)
  no_write : Bool
  xcache : List (List Nat × Nat)
  mru : List Nat
  heap : List (Nat × NCZCacheEntry)
  next : Nat
deriving DecidableEq

/-- NCZ_buildchunkpath: compose the variable key and the chunk key. -/
def NCZ_buildchunkpath (cache : NCZChunkCache) (chunkindices : List Nat) :
    ChunkKey :=
  { varkey := cache.varkey,
    chunkkey := NCZ_buildchunkkey chunkindices cache.dimension_separator }

/-- put_chunk: write one chunk entry through the store. -/
def put_chunk (map : ZMap) (cache : NCZChunkCache) (entry : NCZCacheEntry) :
    Stat × ZMap :=
  nczmap_write map (NCZ_chunkpath entry.key cache.dimension_separator) entry.data

/-- get_chunk: read one chunk into the entry's buffer; returns the store status
and the buffer contents (unchanged on failure or absence). -/
def get_chunk (map : ZMap) (cache : NCZChunkCache) (entry : NCZCacheEntry) :
    Stat × List Nat :=
  nczmap_read map (NCZ_chunkpath entry.key cache.dimension_separator) entry.data

/-- Remove the first occurrence of an id from the mru list; the embedding of
the pointer scan plus `nclistremove` in makeroom. -/
def removeId : List Nat → Nat → List Nat
  | [], _ => []
  | x :: t, id => if x = id then t else x :: removeId t id

/-- makeroom's eviction loop. Fuel-driven (the C loop terminates because every
iteration removes one mru element); called with fuel = initial mru length,
which always suffices. `stat` is the accumulator variable of the C loop: note
that a later eviction's `put_chunk` status overwrites an earlier one. The
`NC_EINTERNAL` arms model C states that would violate the code's asserts
(dangling or unindexed entries). -/
def makeroom_loop : Nat → ZMap → NCZChunkCache → Stat →
    Stat × NCZChunkCache × ZMap
  | 0, map, cache, stat => (stat, cache, map)
  | fuel + 1, map, cache, stat =>
    if cache.mru.length > cache.maxentries then
      match cache.xcache.getLast? with
      | none => (Stat.NC_EINTERNAL, cache, map)
      | some kid =>
        match ncxcacheremove cache.xcache kid.1 with
        | (none, _) => (Stat.NC_ENOTFOUND, cache, map)
        | (some id, xc2) =>
          if id ∈ cache.mru then
            match heapGet cache.heap id with
            | none => (Stat.NC_EINTERNAL, cache, map)
            | some e =>
              let pm := if e.modified then put_chunk map cache e else (stat, map)
              makeroom_loop fuel pm.2
                { cache with
                    xcache := xc2,
                    mru := removeId cache.mru id,
                    heap := heapRemove cache.heap id } pm.1
          else (Stat.NC_EINTERNAL, cache, map)
    else (stat, cache, map)

/-- makeroom: evict from the LRU end while the entry count exceeds
maxentries. -/
def makeroom (map : ZMap) (cache : NCZChunkCache) :
    Stat × NCZChunkCache × ZMap :=
  makeroom_loop cache.mru.length map cache Stat.NC_NOERR

/-- NCZ_read_cache_chunk. Returns (status, datap as an entry id, cache, map).
On a miss the entry is fabricated from an absent object (`NC_EEMPTY` from the
store), is inserted, and the final status is turned into `NC_EEMPTY` to tell
the upper layers (the `created` flag of the C code). -/
def NCZ_read_cache_chunk (map : ZMap) (cache : NCZChunkCache)
    (indices : List Nat) : Stat × Option Nat × NCZChunkCache × ZMap :=
  let hkey := ncxcachekey indices
  match ncxcachelookup cache.xcache hkey with
  | some id =>
    -- hit: move to front of the lru
    (Stat.NC_NOERR, some id,
      { cache with xcache := ncxcachetouch cache.xcache hkey }, map)
  | none =>
    match makeroom map cache with
    | (Stat.NC_NOERR, c1, m1) =>
      -- fresh entry: zeroed data (calloc), built key
      let entry : NCZCacheEntry :=
        { indices := indices, hashkey := hkey,
          key := NCZ_buildchunkpath c1 indices,
          modified := false,
          data := List.replicate c1.chunksize 0 }
      let g := get_chunk m1 c1 entry
      match g.1 with
      | Stat.NC_NOERR =>
        let e := { entry with data := g.2 }
        let id := c1.next
        (Stat.NC_NOERR, some id,
          { c1 with heap := (id, e) :: c1.heap,
                    mru := c1.mru ++ [id],
                    xcache := ncxcacheinsert c1.xcache hkey id,
                    next := id + 1 }, m1)
      | Stat.NC_EEMPTY =>
        -- absent on the store: fake the chunk (FILLONREAD is compiled out,
        -- so the buffer is zeroed, never copied from fillchunk)
        let e := { entry with
                     modified := !c1.no_write,
                     data := List.replicate c1.chunksize 0 }
        let id := c1.next
        (Stat.NC_EEMPTY, some id,
          { c1 with heap := (id, e) :: c1.heap,
                    mru := c1.mru ++ [id],
                    xcache := ncxcacheinsert c1.xcache hkey id,
                    next := id + 1 }, m1)
      | st => (st, none, c1, m1)
    | (st, c1, m1) => (st, none, c1, m1)

/-- NCZ_write_cache_chunk. The C local `entry` is always NULL at the test
`if(entry == NULL)` (no lookup is performed), so a fresh entry is always
created; it is pushed onto the mru list but never inserted into the hash
index, and `*datap` is never assigned (modelled by the constant `none`). -/
def NCZ_write_cache_chunk (map : ZMap) (cache : NCZChunkCache)
    (indices : List Nat) : Stat × Option Nat × NCZChunkCache × ZMap :=
  let hkey := ncxcachekey indices
  match makeroom map cache with
  | (Stat.NC_NOERR, c1, m1) =>
    let entry : NCZCacheEntry :=
      { indices := indices, hashkey := hkey,
        key := NCZ_buildchunkpath c1 indices,
        modified := true,
        data := List.replicate c1.chunksize 0 }
    let id := c1.next
    (Stat.NC_NOERR, none,
      { c1 with heap := (id, entry) :: c1.heap,
                mru := c1.mru ++ [id],
                next := id + 1 }, m1)
  | (st, c1, m1) => (st, none, c1, m1)

/-- NCZ_flush_chunk_cache's loop over the mru list: write out each modified
entry, clear its dirty bit on success, stop at the first failure. -/
def flush_loop (cache : NCZChunkCache) :
    ZMap → List (Nat × NCZCacheEntry) → List Nat →
    Stat × List (Nat × NCZCacheEntry) × ZMap
  | map, heap, [] => (Stat.NC_NOERR, heap, map)
  | map, heap, id :: rest =>
    match heapGet heap id with
    | none => (Stat.NC_EINTERNAL, heap, map)
    | some e =>
      if e.modified then
        match put_chunk map cache e with
        | (Stat.NC_NOERR, m2) =>
          flush_loop cache m2 (heapSet heap id { e with modified := false }) rest
        | (st, m2) => (st, heap, m2)
      else
        flush_loop cache map (heapSet heap id { e with modified := false }) rest

/-- NCZ_flush_chunk_cache: iterate the entries; no eviction takes place. -/
def NCZ_flush_chunk_cache (map : ZMap) (cache : NCZChunkCache) :
    Stat × NCZChunkCache × ZMap :=
  let r := flush_loop cache map cache.heap cache.mru
  (r.1, { cache with heap := r.2.1 }, r.2.2)

/-- NCZ_adjust_var_cache: empty the cache by zeroing maxentries and running
makeroom (whose status the source discards), recompute maxentries from the
byte budget (floordiv, clamped to 1), refresh chunksize from the variable,
and free the fillchunk. -/
def NCZ_adjust_var_cache (map : ZMap) (cache : NCZChunkCache)
    (budget varChunksize : Nat) : NCZChunkCache × ZMap :=
  let r := makeroom map { cache with maxentries := 0 }
  let nelems := budget / varChunksize
  let nelems := if nelems = 0 then 1 else nelems
  ({ r.2.1 with maxentries := nelems,
                chunksize := varChunksize,
                fillchunk := none }, r.2.2)

/-- NCZ_create_chunk_cache: reject chunksize 0, derive maxentries from the
variable's byte budget (clamped to 1), start with an empty container and no
fillchunk. -/
def NCZ_create_chunk_cache (budget chunksize ndims : Nat) (varkey : List Char)
    (dimsep : Char) (no_write : Bool) : Option NCZChunkCache :=
  if chunksize = 0 then none
  else
    let nelems := budget / chunksize
    let nelems := if nelems = 0 then 1 else nelems
    some { ndims := ndims, varkey := varkey, dimension_separator := dimsep,
           chunksize := chunksize, maxentries := nelems, fillchunk := none,
           no_write := no_write, xcache := [], mru := [], heap := [], next := 0 }

/-- Public cache operations, for stating invariants over operation sequences. -/
inductive CacheOp where
  | read (indices : List Nat)
  | write (indices : List Nat)
  | flush
deriving DecidableEq

def CacheOp.readonly : CacheOp → Bool
  | .write _ => false
  | _ => true

def execOp (map : ZMap) (cache : NCZChunkCache) : CacheOp → NCZChunkCache × ZMap
  | .read ixs =>
    let r := NCZ_read_cache_chunk map cache ixs
    (r.2.2.1, r.2.2.2)
  | .write ixs =>
    let r := NCZ_write_cache_chunk map cache ixs
    (r.2.2.1, r.2.2.2)
  | .flush =>
    let r := NCZ_flush_chunk_cache map cache
    (r.2.1, r.2.2)

def runOps (map : ZMap) (cache : NCZChunkCache) : List CacheOp →
    NCZChunkCache × ZMap
  | [] => (cache, map)
  | op :: rest =>
    let r := execOp map cache op
    runOps r.2 r.1 rest

/-- The cross-structure synchronisation of a cache: the hash index and the
recency list hold the same entry ids (as multisets), ids are unique and
allocator-fresh, and every listed id is live on the heap. -/
def InvSync (cache : NCZChunkCache) : Prop :=
  (cache.xcache.map Prod.snd).Perm cache.mru ∧
  cache.mru.Nodup ∧
  (∀ id ∈ cache.mru, id < cache.next) ∧
  (∀ id ∈ cache.mru, (heapGet cache.heap id).isSome = true)

instance (cache : NCZChunkCache) : Decidable (InvSync cache) := by
  unfold InvSync; infer_instance

/-- Full well-formedness: synchronisation plus the entry-count bound. The
count can reach capacity + 1 because the makeroom loop only guarantees
`≤ maxentries` before an insertion. -/
def InvCore (cache : NCZChunkCache) : Prop :=
  InvSync cache ∧ cache.mru.length ≤ cache.maxentries + 1

instance (cache : NCZChunkCache) : Decidable (InvCore cache) := by
  unfold InvCore; infer_instance

instance (cache : NCZChunkCache) : Decidable (InvCore cache) := by
  unfold InvCore; infer_instance

/-- Concrete store fixture: empty object store, write failures on the paths
selected by `fw`, no read failures. -/
def testMap (fw : List Char → Bool) : ZMap :=
  { objects := [], failRead := fun _ => false, failWrite := fw, log := [] }

/-- Concrete store fixture with read failures on the paths selected by `fr`. -/
def testMapR (fr : List Char → Bool) : ZMap :=
  { objects := [], failRead := fr, failWrite := fun _ => false, log := [] }

/-- Concrete cache fixture: rank 1, separator '.', chunk size 1 byte, empty
container, writable dataset. -/
def testCache (maxe : Nat) (fill : Option (List Nat)) : NCZChunkCache :=
  { ndims := 1, varkey := ['v'], dimension_separator := '.', chunksize := 1,
    maxentries := maxe, fillchunk := fill, no_write := false,
    xcache := [], mru := [], heap := [], next := 0 }

/-- The store write calls (path, bytes) that flushing the given ids in order
would issue against the given heap: one call per listed modified entry. -/
def flushCalls (cache : NCZChunkCache) (heap : List (Nat × NCZCacheEntry))
    (ids : List Nat) : List (List Char × List Nat) :=
  ids.filterMap (fun id =>
    match heapGet heap id with
    | some e =>
      if e.modified then
        some (NCZ_chunkpath e.key cache.dimension_separator, e.data)
      else none
    | none => none)

/-- Two cache states with the same configuration fields and allocator counter
(only the container contents may differ). -/
def sameConfig (a b : NCZChunkCache) : Prop :=
  a.ndims = b.ndims ∧ a.varkey = b.varkey ∧
  a.dimension_separator = b.dimension_separator ∧
  a.chunksize = b.chunksize ∧ a.maxentries = b.maxentries ∧
  a.fillchunk = b.fillchunk ∧ a.no_write = b.no_write ∧ a.next = b.next

/-! ### Lemmas about the heap and container primitives -/

theorem removeId_perm {l : List Nat} {id : Nat} (h : id ∈ l) :
    l.Perm (id :: removeId l id) := by
  induction l with
  | nil => cases h
  | cons x t ih =>
    by_cases hx : x = id
    · subst hx
      simp [removeId]
    · have ht : id ∈ t := by
        cases List.mem_cons.mp h with
        | inl h1 => exact absurd h1.symm hx
        | inr h1 => exact h1
      simp only [removeId, if_neg hx]
      exact ((ih ht).cons x).trans (List.Perm.swap id x _)

theorem removeId_subset {l : List Nat} {id x : Nat}
    (h : x ∈ removeId l id) : x ∈ l := by
  induction l with
  | nil => simpa [removeId] using h
  | cons y t ih =>
    simp only [removeId] at h
    by_cases hy : y = id
    · rw [if_pos hy] at h
      exact List.mem_cons_of_mem y h
    · rw [if_neg hy] at h
      cases List.mem_cons.mp h with
      | inl h1 => exact h1 ▸ List.mem_cons_self y t
      | inr h1 => exact List.mem_cons_of_mem y (ih h1)

theorem removeId_nodup {l : List Nat} {id : Nat} (h : l.Nodup) :
    (removeId l id).Nodup := by
  induction l with
  | nil => simpa [removeId] using h
  | cons y t ih =>
    simp only [removeId]
    rcases List.nodup_cons.mp h with ⟨hy, ht⟩
    by_cases hyid : y = id
    · rw [if_pos hyid]; exact ht
    · rw [if_neg hyid]
      exact List.nodup_cons.mpr ⟨fun hm => hy (removeId_subset hm), ih ht⟩

theorem removeId_not_mem {l : List Nat} {id : Nat} (h : l.Nodup) :
    id ∉ removeId l id := by
  induction l with
  | nil => simp [removeId]
  | cons y t ih =>
    simp only [removeId]
    rcases List.nodup_cons.mp h with ⟨hy, ht⟩
    by_cases hyid : y = id
    · rw [if_pos hyid]
      exact fun hm => hy (hyid ▸ hm)
    · rw [if_neg hyid]
      intro hm
      cases List.mem_cons.mp hm with
      | inl h1 => exact hyid h1.symm
      | inr h1 => exact ih ht h1

theorem removeId_length {l : List Nat} {id : Nat} (h : id ∈ l) :
    (removeId l id).length + 1 = l.length :=
  ((removeId_perm h).length_eq).symm ▸ rfl

theorem ncxcacheremove_some_split {xs : List (List Nat × Nat)}
    {k : List Nat} {id : Nat} {xs2 : List (List Nat × Nat)}
    (h : ncxcacheremove xs k = (some id, xs2)) :
    ∃ pre post, xs = pre ++ (k, id) :: post ∧ xs2 = pre ++ post := by
  induction xs generalizing xs2 with
  | nil => simp [ncxcacheremove] at h
  | cons p t ih =>
    obtain ⟨pk, pid⟩ := p
    simp only [ncxcacheremove] at h
    by_cases hk : pk = k
    · rw [if_pos hk] at h
      have h1 : some pid = some id := congrArg Prod.fst h
      have h2 : t = xs2 := congrArg Prod.snd h
      obtain rfl := Option.some.inj h1
      exact ⟨[], t, by simp [hk], by simp [h2]⟩
    · rw [if_neg hk] at h
      have h1 : (ncxcacheremove t k).1 = some id := congrArg Prod.fst h
      have h2 : (pk, pid) :: (ncxcacheremove t k).2 = xs2 := congrArg Prod.snd h
      have hx : ncxcacheremove t k = (some id, (ncxcacheremove t k).2) := by
        rw [← h1]
      obtain ⟨pre, post, hsplit, hrem⟩ := ih hx
      refine ⟨(pk, pid) :: pre, post, by simp [hsplit], ?_⟩
      rw [← h2, hrem]
      simp

theorem ncxcacheremove_isSome {xs : List (List Nat × Nat)} {k : List Nat}
    (h : ∃ p ∈ xs, p.1 = k) : (ncxcacheremove xs k).1.isSome = true := by
  induction xs with
  | nil => simp at h
  | cons p t ih =>
    obtain ⟨pk, pid⟩ := p
    simp only [ncxcacheremove]
    by_cases hk : pk = k
    · rw [if_pos hk]; rfl
    · rw [if_neg hk]
      obtain ⟨q, hq, hqk⟩ := h
      cases List.mem_cons.mp hq with
      | inl h1 => exact absurd (show pk = k by rw [h1] at hqk; exact hqk) hk
      | inr h1 => exact ih ⟨q, h1, hqk⟩

theorem ncxcacheremove_perm {xs : List (List Nat × Nat)} {k : List Nat}
    {id : Nat} {xs2 : List (List Nat × Nat)}
    (h : ncxcacheremove xs k = (some id, xs2)) :
    (xs.map Prod.snd).Perm (id :: xs2.map Prod.snd) := by
  obtain ⟨pre, post, h1, h2⟩ := ncxcacheremove_some_split h
  subst h1; subst h2
  simp only [List.map_append, List.map_cons]
  exact List.perm_middle

theorem heapGet_remove_ne {heap : List (Nat × NCZCacheEntry)} {id id2 : Nat}
    (h : id2 ≠ id) : heapGet (heapRemove heap id) id2 = heapGet heap id2 := by
  induction heap with
  | nil => rfl
  | cons p t ih =>
    obtain ⟨i, e⟩ := p
    simp only [heapRemove, heapGet]
    by_cases hi : i = id
    · rw [if_pos hi, if_neg (by omega : ¬ i = id2)]
    · rw [if_neg hi]
      by_cases hi2 : i = id2
      · simp [heapGet, hi2]
      · simp [heapGet, hi2, ih]

theorem heapGet_set_isSome (heap : List (Nat × NCZCacheEntry))
    (id : Nat) (e : NCZCacheEntry) (id2 : Nat) :
    (heapGet (heapSet heap id e) id2).isSome = (heapGet heap id2).isSome := by
  induction heap with
  | nil => rfl
  | cons p t ih =>
    obtain ⟨i, e0⟩ := p
    simp only [heapSet, heapGet]
    by_cases hi : i = id
    · rw [if_pos hi]
      by_cases hi2 : i = id2 <;> simp [heapGet, hi2]
    · rw [if_neg hi]
      by_cases hi2 : i = id2 <;> simp [heapGet, hi2, ih]

theorem heapGet_set_ne {heap : List (Nat × NCZCacheEntry)} {id id2 : Nat}
    (e : NCZCacheEntry) (h : id2 ≠ id) :
    heapGet (heapSet heap id e) id2 = heapGet heap id2 := by
  induction heap with
  | nil => rfl
  | cons p t ih =>
    obtain ⟨i, e0⟩ := p
    show heapGet (if i = id then (i, e) :: t else (i, e0) :: heapSet t id e) id2
        = heapGet ((i, e0) :: t) id2
    by_cases hi : i = id
    · rw [if_pos hi]
      show (if i = id2 then some e else heapGet t id2)
          = (if i = id2 then some e0 else heapGet t id2)
      rw [if_neg (by omega : ¬ i = id2), if_neg (by omega : ¬ i = id2)]
    · rw [if_neg hi]
      show (if i = id2 then some e0 else heapGet (heapSet t id e) id2)
          = (if i = id2 then some e0 else heapGet t id2)
      by_cases hi2 : i = id2
      · rw [if_pos hi2, if_pos hi2]
      · rw [if_neg hi2, if_neg hi2]
        exact ih

theorem heapGet_set_of_get {heap : List (Nat × NCZCacheEntry)} {id : Nat}
    {e0 : NCZCacheEntry} (e : NCZCacheEntry) (h : heapGet heap id = some e0) :
    heapGet (heapSet heap id e) id = some e := by
  induction heap with
  | nil => simp [heapGet] at h
  | cons p t ih =>
    obtain ⟨i, e1⟩ := p
    simp only [heapSet, heapGet] at h ⊢
    by_cases hi : i = id
    · rw [if_pos hi]
      simp [heapGet, hi]
    · rw [if_neg hi]
      simp only [heapGet, if_neg hi]
      exact ih (by simpa [if_neg hi] using h)

theorem ncxcachetouch_perm (xc : List (List Nat × Nat)) (k : List Nat) :
    ((ncxcachetouch xc k).map Prod.snd).Perm (xc.map Prod.snd) := by
  unfold ncxcachetouch
  cases h : ncxcacheremove xc k with
  | mk o t =>
    cases o with
    | none => exact List.Perm.refl _
    | some id =>
      simp only [List.map_cons]
      exact (ncxcacheremove_perm h).symm

/-! ### Lemmas about decimal printing -/

theorem decAux_acc (fuel : Nat) : ∀ n acc,
    decAux fuel n acc = decAux fuel n [] ++ acc := by
  induction fuel with
  | zero => intro n acc; simp [decAux]
  | succ fuel ih =>
    intro n acc
    by_cases h : n < 10
    · simp [decAux, h]
    · simp only [decAux, if_neg h]
      rw [ih (n / 10) (Nat.digitChar (n % 10) :: acc),
          ih (n / 10) [Nat.digitChar (n % 10)]]
      simp

theorem decAux_fuel (f1 : Nat) : ∀ f2 n acc, n ≤ f1 → n ≤ f2 →
    decAux f1 n acc = decAux f2 n acc := by
  induction f1 with
  | zero =>
    intro f2 n acc h1 _
    interval_cases n
    cases f2 with
    | zero => rfl
    | succ f2 => simp [decAux]
  | succ f1 ih =>
    intro f2 n acc _ h2
    cases f2 with
    | zero =>
      interval_cases n
      simp [decAux]
    | succ f2 =>
      by_cases h : n < 10
      · simp [decAux, h]
      · simp only [decAux, if_neg h]
        have hd : n / 10 < n :=
          Nat.div_lt_self (by omega) (by omega)
        exact ih f2 (n / 10) _ (by omega) (by omega)

theorem decRepr_of_lt {n : Nat} (h : n < 10) :
    decRepr n = [Nat.digitChar n] := by
  unfold decRepr
  cases n with
  | zero => simp [decAux]
  | succ m => simp [decAux, h]

theorem decRepr_of_ge {n : Nat} (h : 10 ≤ n) :
    decRepr n = decRepr (n / 10) ++ [Nat.digitChar (n % 10)] := by
  unfold decRepr
  obtain ⟨m, rfl⟩ : ∃ m, n = m + 1 := ⟨n - 1, by omega⟩
  simp only [decAux, if_neg (by omega : ¬ m + 1 < 10)]
  rw [decAux_acc]
  congr 1
  have hd : (m + 1) / 10 < m + 1 := Nat.div_lt_self (by omega) (by omega)
  exact decAux_fuel m ((m+1)/10) ((m+1)/10) [] (by omega) (le_refl _)

theorem digitChar_toNat {k : Nat} (h : k < 10) :
    (Nat.digitChar k).toNat = 48 + k := by
  interval_cases k <;> rfl

theorem digitChar_isDigit {k : Nat} (h : k < 10) :
    (Nat.digitChar k).isDigit = true := by
  interval_cases k <;> rfl

theorem decVal_append_digit (cs : List Char) (c : Char) :
    decVal (cs ++ [c]) = decVal cs * 10 + (c.toNat - 48) := by
  unfold decVal
  rw [List.foldl_append]
  rfl

theorem decVal_decRepr (n : Nat) : decVal (decRepr n) = n := by
  induction n using Nat.strong_induction_on with
  | _ n ih =>
    by_cases h : n < 10
    · rw [decRepr_of_lt h]
      show 0 * 10 + ((Nat.digitChar n).toNat - 48) = n
      rw [digitChar_toNat h]; omega
    · rw [decRepr_of_ge (by omega), decVal_append_digit,
          ih (n / 10) (Nat.div_lt_self (by omega) (by omega)),
          digitChar_toNat (Nat.mod_lt _ (by omega))]
      omega

theorem decRepr_inj {m n : Nat} (h : decRepr m = decRepr n) : m = n := by
  have hm := decVal_decRepr m
  rw [h, decVal_decRepr] at hm
  exact hm.symm

theorem decRepr_isDigit (n : Nat) : ∀ c ∈ decRepr n, c.isDigit = true := by
  induction n using Nat.strong_induction_on with
  | _ n ih =>
    intro c hc
    by_cases h : n < 10
    · rw [decRepr_of_lt h] at hc
      simp at hc
      subst hc
      exact digitChar_isDigit h
    · rw [decRepr_of_ge (by omega)] at hc
      rcases List.mem_append.mp hc with h1 | h1
      · exact ih (n / 10) (Nat.div_lt_self (by omega) (by omega)) c h1
      · simp at h1
        subst h1
        exact digitChar_isDigit (Nat.mod_lt _ (by omega))

theorem decRepr_ne_nil (n : Nat) : decRepr n ≠ [] := by
  by_cases h : n < 10
  · rw [decRepr_of_lt h]; simp
  · rw [decRepr_of_ge (by omega)]; simp

theorem head_append_of_ne_nil {α : Type} {a : List α} (b : List α)
    (h : a ≠ []) : (a ++ b).head? = a.head? := by
  cases a with
  | nil => exact absurd rfl h
  | cons x t => rfl

theorem decRepr_head_ne_zero {n : Nat} (h : 0 < n) :
    (decRepr n).head? ≠ some '0' := by
  induction n using Nat.strong_induction_on with
  | _ n ih =>
    by_cases hlt : n < 10
    · rw [decRepr_of_lt hlt]
      interval_cases n <;> simp <;> decide
    · rw [decRepr_of_ge (by omega),
          head_append_of_ne_nil _ (decRepr_ne_nil _)]
      exact ih (n / 10) (Nat.div_lt_self (by omega) (by omega))
        (Nat.div_pos (by omega) (by omega))

/-! ### Lemmas about the chunk-key codec -/

theorem joinSep_cons (s : Char) (x : List Char) (L : List (List Char)) :
    joinSep s (x :: L) = x ++ (L.map (fun y => s :: y)).flatten := by
  induction L generalizing x with
  | nil => simp [joinSep]
  | cons y t ih =>
    show x ++ s :: joinSep s (y :: t) = _
    rw [ih y]
    simp [List.flatten]

theorem buildchunkkey_fold (sep : Char) (xs : List Nat) : ∀ (k : Nat)
    (acc : List Char), 1 ≤ k →
    (List.enumFrom k xs).foldl
      (fun key p => (if p.1 > 0 then key ++ [sep] else key) ++ decRepr p.2)
      acc = acc ++ (xs.map (fun x => sep :: decRepr x)).flatten := by
  induction xs with
  | nil => intro k acc _; simp
  | cons x t ih =>
    intro k acc hk
    show (List.enumFrom (k+1) t).foldl _
        ((if k > 0 then acc ++ [sep] else acc) ++ decRepr x) = _
    rw [if_pos (by omega), ih (k+1) _ (by omega)]
    simp [List.flatten]

theorem buildchunkkey_eq_joinSep (ixs : List Nat) (sep : Char) :
    NCZ_buildchunkkey ixs sep = joinSep sep (ixs.map decRepr) := by
  cases ixs with
  | nil => rfl
  | cons x t =>
    show (List.enumFrom 1 t).foldl _
        ((if (0:Nat) > 0 then [] ++ [sep] else []) ++ decRepr x) = _
    rw [if_neg (by omega), buildchunkkey_fold sep t 1 _ (le_refl 1),
        List.map_cons, joinSep_cons, List.nil_append, List.map_map]
    rfl

theorem joinSep_eq_intercalate (s : Char) : ∀ L : List (List Char),
    joinSep s L = List.intercalate [s] L := by
  intro L
  induction L with
  | nil => rfl
  | cons x t ih =>
    cases t with
    | nil => simp [joinSep, List.intercalate, List.intersperse]
    | cons y u =>
      show x ++ s :: joinSep s (y :: u) = _
      rw [ih]
      simp [List.intercalate, List.intersperse, List.flatten]

theorem sep_split (s : Char) : ∀ (a b u v : List Char), s ∉ a → s ∉ b →
    a ++ s :: u = b ++ s :: v → a = b ∧ u = v := by
  intro a
  induction a with
  | nil =>
    intro b u v _ hb heq
    cases b with
    | nil => simpa using heq
    | cons c bt =>
      simp only [List.nil_append, List.cons_append, List.cons.injEq] at heq
      exact absurd (heq.1 ▸ List.mem_cons_self c bt) hb
  | cons c at' ih =>
    intro b u v ha hb heq
    cases b with
    | nil =>
      simp only [List.cons_append, List.nil_append, List.cons.injEq] at heq
      exact absurd (heq.1 ▸ List.mem_cons_self c at') ha
    | cons d bt =>
      simp only [List.cons_append, List.cons.injEq] at heq
      obtain ⟨hcd, heq2⟩ := heq
      have := ih bt u v (fun hx => ha (List.mem_cons_of_mem c hx))
        (fun hx => hb (hcd ▸ List.mem_cons_of_mem d hx)) heq2
      exact ⟨by rw [hcd, this.1], this.2⟩

theorem joinSep_inj (s : Char) : ∀ (A B : List (List Char)),
    A.length = B.length → (∀ x ∈ A, s ∉ x) → (∀ x ∈ B, s ∉ x) →
    joinSep s A = joinSep s B → A = B := by
  intro A
  induction A with
  | nil =>
    intro B hlen _ _ _
    cases B with
    | nil => rfl
    | cons y u => simp at hlen
  | cons x t ih =>
    intro B hlen hA hB heq
    cases B with
    | nil => simp at hlen
    | cons y u =>
      cases t with
      | nil =>
        cases u with
        | nil => simpa [joinSep] using heq
        | cons z w => simp at hlen
      | cons x2 t2 =>
        cases u with
        | nil => simp at hlen
        | cons y2 u2 =>
          have hx : s ∉ x := hA x (List.mem_cons_self _ _)
          have hy : s ∉ y := hB y (List.mem_cons_self _ _)
          have heq2 : x ++ s :: joinSep s (x2 :: t2) =
              y ++ s :: joinSep s (y2 :: u2) := heq
          obtain ⟨hxy, hrest⟩ := sep_split s x y _ _ hx hy heq2
          have := ih (y2 :: u2) (by simpa using hlen)
            (fun z hz => hA z (List.mem_cons_of_mem x hz))
            (fun z hz => hB z (List.mem_cons_of_mem y hz)) hrest
          rw [hxy, this]

/-! ### Lemmas about makeroom -/

theorem sameConfig_refl (a : NCZChunkCache) : sameConfig a a :=
  ⟨rfl, rfl, rfl, rfl, rfl, rfl, rfl, rfl⟩

theorem sameConfig_trans {a b c : NCZChunkCache}
    (h1 : sameConfig a b) (h2 : sameConfig b c) : sameConfig a c := by
  obtain ⟨a1, a2, a3, a4, a5, a6, a7, a8⟩ := h1
  obtain ⟨b1, b2, b3, b4, b5, b6, b7, b8⟩ := h2
  exact ⟨a1.trans b1, a2.trans b2, a3.trans b3, a4.trans b4,
    a5.trans b5, a6.trans b6, a7.trans b7, a8.trans b8⟩

theorem makeroom_loop_not_full {fuel : Nat} {map : ZMap}
    {cache : NCZChunkCache} {stat : Stat}
    (h : ¬ cache.mru.length > cache.maxentries) :
    makeroom_loop (fuel + 1) map cache stat = (stat, cache, map) := by
  unfold makeroom_loop
  rw [if_neg h]

theorem makeroom_loop_no_last {fuel : Nat} {map : ZMap}
    {cache : NCZChunkCache} {stat : Stat}
    (h : cache.mru.length > cache.maxentries)
    (hl : cache.xcache.getLast? = none) :
    makeroom_loop (fuel + 1) map cache stat = (Stat.NC_EINTERNAL, cache, map) := by
  unfold makeroom_loop
  rw [if_pos h, hl]

theorem makeroom_loop_remove_fail {fuel : Nat} {map : ZMap}
    {cache : NCZChunkCache} {stat : Stat} {kid : List Nat × Nat}
    {xc2 : List (List Nat × Nat)}
    (h : cache.mru.length > cache.maxentries)
    (hl : cache.xcache.getLast? = some kid)
    (hr : ncxcacheremove cache.xcache kid.1 = (none, xc2)) :
    makeroom_loop (fuel + 1) map cache stat = (Stat.NC_ENOTFOUND, cache, map) := by
  unfold makeroom_loop
  simp only [if_pos h, hl, hr]

theorem makeroom_loop_not_in_mru {fuel : Nat} {map : ZMap}
    {cache : NCZChunkCache} {stat : Stat} {kid : List Nat × Nat} {id : Nat}
    {xc2 : List (List Nat × Nat)}
    (h : cache.mru.length > cache.maxentries)
    (hl : cache.xcache.getLast? = some kid)
    (hr : ncxcacheremove cache.xcache kid.1 = (some id, xc2))
    (hm : id ∉ cache.mru) :
    makeroom_loop (fuel + 1) map cache stat = (Stat.NC_EINTERNAL, cache, map) := by
  unfold makeroom_loop
  simp only [if_pos h, hl, hr, if_neg hm]

theorem makeroom_loop_no_heap {fuel : Nat} {map : ZMap}
    {cache : NCZChunkCache} {stat : Stat} {kid : List Nat × Nat} {id : Nat}
    {xc2 : List (List Nat × Nat)}
    (h : cache.mru.length > cache.maxentries)
    (hl : cache.xcache.getLast? = some kid)
    (hr : ncxcacheremove cache.xcache kid.1 = (some id, xc2))
    (hm : id ∈ cache.mru)
    (hg : heapGet cache.heap id = none) :
    makeroom_loop (fuel + 1) map cache stat = (Stat.NC_EINTERNAL, cache, map) := by
  unfold makeroom_loop
  simp only [if_pos h, hl, hr, if_pos hm, hg]

theorem makeroom_loop_step {fuel : Nat} {map : ZMap}
    {cache : NCZChunkCache} {stat : Stat} {kid : List Nat × Nat} {id : Nat}
    {xc2 : List (List Nat × Nat)} {e : NCZCacheEntry}
    (h : cache.mru.length > cache.maxentries)
    (hl : cache.xcache.getLast? = some kid)
    (hr : ncxcacheremove cache.xcache kid.1 = (some id, xc2))
    (hm : id ∈ cache.mru)
    (hg : heapGet cache.heap id = some e) :
    makeroom_loop (fuel + 1) map cache stat =
      makeroom_loop fuel
        (if e.modified then put_chunk map cache e else (stat, map)).2
        { cache with xcache := xc2, mru := removeId cache.mru id,
                     heap := heapRemove cache.heap id }
        (if e.modified then put_chunk map cache e else (stat, map)).1 := by
  conv_lhs => unfold makeroom_loop
  simp only [if_pos h, hl, hr, if_pos hm, hg]

theorem makeroom_loop_config : ∀ (fuel : Nat) (map : ZMap)
    (cache : NCZChunkCache) (stat : Stat),
    sameConfig (makeroom_loop fuel map cache stat).2.1 cache := by
  intro fuel
  induction fuel with
  | zero => intro map cache stat; exact sameConfig_refl _
  | succ fuel ih =>
    intro map cache stat
    by_cases hcond : cache.mru.length > cache.maxentries
    · cases hlast : cache.xcache.getLast? with
      | none => rw [makeroom_loop_no_last hcond hlast]; exact sameConfig_refl _
      | some kid =>
        obtain ⟨o, xc2, hrem⟩ :
            ∃ o xc2, ncxcacheremove cache.xcache kid.1 = (o, xc2) :=
          ⟨_, _, rfl⟩
        cases o with
        | none =>
          rw [makeroom_loop_remove_fail hcond hlast hrem]
          exact sameConfig_refl _
        | some id =>
          by_cases hm : id ∈ cache.mru
          · cases hget : heapGet cache.heap id with
            | none =>
              rw [makeroom_loop_no_heap hcond hlast hrem hm hget]
              exact sameConfig_refl _
            | some e =>
              rw [makeroom_loop_step hcond hlast hrem hm hget]
              exact sameConfig_trans (ih _ _ _) (sameConfig_refl _)
          · rw [makeroom_loop_not_in_mru hcond hlast hrem hm]
            exact sameConfig_refl _
    · rw [makeroom_loop_not_full hcond]
      exact sameConfig_refl _

theorem makeroom_loop_mru_le : ∀ (fuel : Nat) (map : ZMap)
    (cache : NCZChunkCache) (stat : Stat),
    (makeroom_loop fuel map cache stat).2.1.mru.length ≤ cache.mru.length := by
  intro fuel
  induction fuel with
  | zero => intro map cache stat; exact le_refl _
  | succ fuel ih =>
    intro map cache stat
    by_cases hcond : cache.mru.length > cache.maxentries
    · cases hlast : cache.xcache.getLast? with
      | none => rw [makeroom_loop_no_last hcond hlast]
      | some kid =>
        obtain ⟨o, xc2, hrem⟩ :
            ∃ o xc2, ncxcacheremove cache.xcache kid.1 = (o, xc2) :=
          ⟨_, _, rfl⟩
        cases o with
        | none =>
          rw [makeroom_loop_remove_fail hcond hlast hrem]
        | some id =>
          by_cases hm : id ∈ cache.mru
          · cases hget : heapGet cache.heap id with
            | none =>
              rw [makeroom_loop_no_heap hcond hlast hrem hm hget]
            | some e =>
              rw [makeroom_loop_step hcond hlast hrem hm hget]
              refine le_trans (ih _ _ _) ?_
              show (removeId cache.mru id).length ≤ cache.mru.length
              have hx := removeId_length hm
              omega
          · rw [makeroom_loop_not_in_mru hcond hlast hrem hm]
    · rw [makeroom_loop_not_full hcond]

theorem makeroom_loop_noerr_len : ∀ (fuel : Nat) (map : ZMap)
    (cache : NCZChunkCache) (stat : Stat),
    cache.mru.length ≤ fuel + cache.maxentries →
    (makeroom_loop fuel map cache stat).1 = Stat.NC_NOERR →
    (makeroom_loop fuel map cache stat).2.1.mru.length ≤ cache.maxentries := by
  intro fuel
  induction fuel with
  | zero =>
    intro map cache stat hlen _
    show cache.mru.length ≤ cache.maxentries
    omega
  | succ fuel ih =>
    intro map cache stat hlen hnoerr
    by_cases hcond : cache.mru.length > cache.maxentries
    · cases hlast : cache.xcache.getLast? with
      | none =>
        rw [makeroom_loop_no_last hcond hlast] at hnoerr
        exact Stat.noConfusion hnoerr
      | some kid =>
        obtain ⟨o, xc2, hrem⟩ :
            ∃ o xc2, ncxcacheremove cache.xcache kid.1 = (o, xc2) :=
          ⟨_, _, rfl⟩
        cases o with
        | none =>
          rw [makeroom_loop_remove_fail hcond hlast hrem] at hnoerr
          exact Stat.noConfusion hnoerr
        | some id =>
          by_cases hm : id ∈ cache.mru
          · cases hget : heapGet cache.heap id with
            | none =>
              rw [makeroom_loop_no_heap hcond hlast hrem hm hget] at hnoerr
              exact Stat.noConfusion hnoerr
            | some e =>
              rw [makeroom_loop_step hcond hlast hrem hm hget] at hnoerr ⊢
              have hx := removeId_length hm
              exact ih _ _ _
                (show (removeId cache.mru id).length ≤
                  fuel + cache.maxentries by omega) hnoerr
          · rw [makeroom_loop_not_in_mru hcond hlast hrem hm] at hnoerr
            exact Stat.noConfusion hnoerr
    · rw [makeroom_loop_not_full hcond]
      show cache.mru.length ≤ cache.maxentries
      omega

theorem makeroom_loop_inv : ∀ (fuel : Nat) (map : ZMap)
    (cache : NCZChunkCache) (stat : Stat),
    (cache.xcache.map Prod.snd).Perm cache.mru →
    cache.mru.Nodup →
    (∀ id ∈ cache.mru, id < cache.next) →
    (∀ id ∈ cache.mru, (heapGet cache.heap id).isSome = true) →
    cache.mru.length ≤ fuel + cache.maxentries →
    InvSync (makeroom_loop fuel map cache stat).2.1 ∧
    (makeroom_loop fuel map cache stat).2.1.mru.length ≤ cache.maxentries := by
  intro fuel
  induction fuel with
  | zero =>
    intro map cache stat hperm hnodup hfresh hheap hlen
    refine ⟨⟨hperm, hnodup, hfresh, hheap⟩, ?_⟩
    show cache.mru.length ≤ cache.maxentries
    omega
  | succ fuel ih =>
    intro map cache stat hperm hnodup hfresh hheap hlen
    by_cases hcond : cache.mru.length > cache.maxentries
    · cases hlast : cache.xcache.getLast? with
      | none =>
        have hx : cache.xcache = [] := List.getLast?_eq_none_iff.mp hlast
        rw [hx] at hperm
        have hmru : cache.mru = [] := hperm.symm.eq_nil
        rw [hmru] at hcond
        simp at hcond
      | some kid =>
        obtain ⟨o, xc2, hrem⟩ :
            ∃ o xc2, ncxcacheremove cache.xcache kid.1 = (o, xc2) :=
          ⟨_, _, rfl⟩
        cases o with
        | none =>
          have hk : (ncxcacheremove cache.xcache kid.1).1.isSome = true :=
            ncxcacheremove_isSome ⟨kid, List.mem_of_mem_getLast? hlast, rfl⟩
          rw [hrem] at hk
          simp at hk
        | some id =>
          obtain ⟨pre, post, hxs, hxc2⟩ := ncxcacheremove_some_split hrem
          have hidmem : id ∈ cache.xcache.map Prod.snd := by
            rw [hxs]
            simp
          have hm : id ∈ cache.mru := hperm.subset hidmem
          cases hget : heapGet cache.heap id with
          | none =>
            have := hheap id hm
            rw [hget] at this
            simp at this
          | some e =>
            rw [makeroom_loop_step hcond hlast hrem hm hget]
            have hpermStep : (xc2.map Prod.snd).Perm (removeId cache.mru id) := by
              have h1 : (id :: xc2.map Prod.snd).Perm
                  (cache.xcache.map Prod.snd) := by
                rw [hxs, hxc2]
                simp only [List.map_append, List.map_cons]
                exact List.perm_middle.symm
              have h2 : (id :: xc2.map Prod.snd).Perm
                  (id :: removeId cache.mru id) :=
                (h1.trans hperm).trans (removeId_perm hm)
              exact h2.cons_inv
            have hx := removeId_length hm
            refine ih _ _ _ hpermStep (removeId_nodup hnodup) ?_ ?_ ?_
            · intro x hxm
              exact hfresh x (removeId_subset hxm)
            · intro x hxm
              have hne : x ≠ id := fun hxe =>
                removeId_not_mem hnodup (hxe ▸ hxm)
              rw [heapGet_remove_ne hne]
              exact hheap x (removeId_subset hxm)
            · show (removeId cache.mru id).length ≤ fuel + cache.maxentries
              omega
    · rw [makeroom_loop_not_full hcond]
      refine ⟨⟨hperm, hnodup, hfresh, hheap⟩, ?_⟩
      show cache.mru.length ≤ cache.maxentries
      omega

theorem makeroom_config (map : ZMap) (cache : NCZChunkCache) :
    sameConfig (makeroom map cache).2.1 cache :=
  makeroom_loop_config cache.mru.length map cache Stat.NC_NOERR

theorem makeroom_mru_le (map : ZMap) (cache : NCZChunkCache) :
    (makeroom map cache).2.1.mru.length ≤ cache.mru.length :=
  makeroom_loop_mru_le cache.mru.length map cache Stat.NC_NOERR

theorem makeroom_noerr_len {map : ZMap} {cache : NCZChunkCache}
    (h : (makeroom map cache).1 = Stat.NC_NOERR) :
    (makeroom map cache).2.1.mru.length ≤ cache.maxentries :=
  makeroom_loop_noerr_len cache.mru.length map cache Stat.NC_NOERR (by omega) h

theorem makeroom_inv {map : ZMap} {cache : NCZChunkCache} (h : InvSync cache) :
    InvSync (makeroom map cache).2.1 ∧
    (makeroom map cache).2.1.mru.length ≤ cache.maxentries :=
  makeroom_loop_inv cache.mru.length map cache Stat.NC_NOERR
    h.1 h.2.1 h.2.2.1 h.2.2.2 (by omega)

/-! ### Characterisation of the read/write/flush paths -/

theorem read_hit {map : ZMap} {cache : NCZChunkCache} {indices : List Nat}
    {id : Nat}
    (h : ncxcachelookup cache.xcache (ncxcachekey indices) = some id) :
    NCZ_read_cache_chunk map cache indices =
      (Stat.NC_NOERR, some id,
        { cache with xcache := ncxcachetouch cache.xcache (ncxcachekey indices) },
        map) := by
  unfold NCZ_read_cache_chunk
  simp only [h]

theorem read_miss_makeroom_fail {map : ZMap} {cache : NCZChunkCache}
    {indices : List Nat} {st : Stat} {c1 : NCZChunkCache} {m1 : ZMap}
    (hlk : ncxcachelookup cache.xcache (ncxcachekey indices) = none)
    (hmr : makeroom map cache = (st, c1, m1)) (hst : st ≠ Stat.NC_NOERR) :
    NCZ_read_cache_chunk map cache indices = (st, none, c1, m1) := by
  unfold NCZ_read_cache_chunk
  cases st with
  | NC_NOERR => exact absurd rfl hst
  | NC_EEMPTY => simp only [hlk, hmr]
  | NC_ENOTFOUND => simp only [hlk, hmr]
  | NC_EINVAL => simp only [hlk, hmr]
  | NC_ENOMEM => simp only [hlk, hmr]
  | NC_EIO => simp only [hlk, hmr]
  | NC_EINTERNAL => simp only [hlk, hmr]

theorem read_miss_io {map : ZMap} {cache : NCZChunkCache}
    {indices : List Nat} {c1 : NCZChunkCache} {m1 : ZMap}
    (hlk : ncxcachelookup cache.xcache (ncxcachekey indices) = none)
    (hmr : makeroom map cache = (Stat.NC_NOERR, c1, m1))
    (hfr : m1.failRead (NCZ_chunkpath (NCZ_buildchunkpath c1 indices)
      c1.dimension_separator) = true) :
    NCZ_read_cache_chunk map cache indices = (Stat.NC_EIO, none, c1, m1) := by
  unfold NCZ_read_cache_chunk
  simp only [hlk, hmr, get_chunk, nczmap_read, hfr, if_true]

theorem read_miss_created {map : ZMap} {cache : NCZChunkCache}
    {indices : List Nat} {c1 : NCZChunkCache} {m1 : ZMap}
    (hlk : ncxcachelookup cache.xcache (ncxcachekey indices) = none)
    (hmr : makeroom map cache = (Stat.NC_NOERR, c1, m1))
    (hfr : m1.failRead (NCZ_chunkpath (NCZ_buildchunkpath c1 indices)
      c1.dimension_separator) = false)
    (hsg : storeGet m1.objects (NCZ_chunkpath (NCZ_buildchunkpath c1 indices)
      c1.dimension_separator) = none) :
    NCZ_read_cache_chunk map cache indices =
      (Stat.NC_EEMPTY, some c1.next,
        { c1 with
            heap := (c1.next,
              { indices := indices, hashkey := ncxcachekey indices,
                key := NCZ_buildchunkpath c1 indices,
                modified := !c1.no_write,
                data := List.replicate c1.chunksize 0 }) :: c1.heap,
            mru := c1.mru ++ [c1.next],
            xcache := (ncxcachekey indices, c1.next) :: c1.xcache,
            next := c1.next + 1 }, m1) := by
  unfold NCZ_read_cache_chunk
  simp only [hlk, hmr, get_chunk, nczmap_read, hfr, hsg, Bool.false_eq_true,
    if_false, ncxcacheinsert]

theorem read_miss_found {map : ZMap} {cache : NCZChunkCache}
    {indices : List Nat} {c1 : NCZChunkCache} {m1 : ZMap} {bytes : List Nat}
    (hlk : ncxcachelookup cache.xcache (ncxcachekey indices) = none)
    (hmr : makeroom map cache = (Stat.NC_NOERR, c1, m1))
    (hfr : m1.failRead (NCZ_chunkpath (NCZ_buildchunkpath c1 indices)
      c1.dimension_separator) = false)
    (hsg : storeGet m1.objects (NCZ_chunkpath (NCZ_buildchunkpath c1 indices)
      c1.dimension_separator) = some bytes) :
    NCZ_read_cache_chunk map cache indices =
      (Stat.NC_NOERR, some c1.next,
        { c1 with
            heap := (c1.next,
              { indices := indices, hashkey := ncxcachekey indices,
                key := NCZ_buildchunkpath c1 indices,
                modified := false,
                data := bytes }) :: c1.heap,
            mru := c1.mru ++ [c1.next],
            xcache := (ncxcachekey indices, c1.next) :: c1.xcache,
            next := c1.next + 1 }, m1) := by
  unfold NCZ_read_cache_chunk
  simp only [hlk, hmr, get_chunk, nczmap_read, hfr, hsg, Bool.false_eq_true,
    if_false, ncxcacheinsert]

theorem write_noerr {map : ZMap} {cache : NCZChunkCache}
    {indices : List Nat} {c1 : NCZChunkCache} {m1 : ZMap}
    (hmr : makeroom map cache = (Stat.NC_NOERR, c1, m1)) :
    NCZ_write_cache_chunk map cache indices =
      (Stat.NC_NOERR, none,
        { c1 with
            heap := (c1.next,
              { indices := indices, hashkey := ncxcachekey indices,
                key := NCZ_buildchunkpath c1 indices,
                modified := true,
                data := List.replicate c1.chunksize 0 }) :: c1.heap,
            mru := c1.mru ++ [c1.next],
            next := c1.next + 1 }, m1) := by
  unfold NCZ_write_cache_chunk
  simp only [hmr]

/-! ### Invariant preservation -/

theorem insert_inv {c1 : NCZChunkCache} {e : NCZCacheEntry} {k : List Nat}
    (hs : InvSync c1) (hlen : c1.mru.length ≤ c1.maxentries) :
    InvCore { c1 with heap := (c1.next, e) :: c1.heap,
                      mru := c1.mru ++ [c1.next],
                      xcache := (k, c1.next) :: c1.xcache,
                      next := c1.next + 1 } := by
  obtain ⟨hperm, hnodup, hfresh, hheap⟩ := hs
  have hnotmem : c1.next ∉ c1.mru := fun hmem => by
    have := hfresh _ hmem
    omega
  have hcons : (c1.next :: c1.mru).Nodup :=
    List.nodup_cons.mpr ⟨hnotmem, hnodup⟩
  have hp2 : (c1.next :: c1.mru).Perm (c1.mru ++ [c1.next]) :=
    (List.perm_append_singleton c1.next c1.mru).symm
  refine ⟨⟨?_, ?_, ?_, ?_⟩, ?_⟩
  · show (c1.next :: c1.xcache.map Prod.snd).Perm (c1.mru ++ [c1.next])
    exact ((hperm.cons c1.next).trans hp2)
  · exact hp2.nodup hcons
  · intro x hx
    show x < c1.next + 1
    rcases List.mem_append.mp hx with h1 | h1
    · have := hfresh x h1
      omega
    · simp at h1
      omega
  · intro x hx
    show (if c1.next = x then some e else heapGet c1.heap x).isSome = true
    by_cases hxn : c1.next = x
    · rw [if_pos hxn]
      rfl
    · rw [if_neg hxn]
      rcases List.mem_append.mp hx with h1 | h1
      · exact hheap x h1
      · simp at h1
        omega
  · show (c1.mru ++ [c1.next]).length ≤ c1.maxentries + 1
    simp only [List.length_append, List.length_cons, List.length_nil]
    omega

theorem read_inv {map : ZMap} {cache : NCZChunkCache} {indices : List Nat}
    (h : InvCore cache) :
    InvCore (NCZ_read_cache_chunk map cache indices).2.2.1 ∧
    (NCZ_read_cache_chunk map cache indices).2.2.1.maxentries =
      cache.maxentries := by
  obtain ⟨hsync, hbound⟩ := h
  cases hlk : ncxcachelookup cache.xcache (ncxcachekey indices) with
  | some id =>
    rw [read_hit hlk]
    exact ⟨⟨⟨(ncxcachetouch_perm _ _).trans hsync.1,
      hsync.2.1, hsync.2.2.1, hsync.2.2.2⟩, hbound⟩, rfl⟩
  | none =>
    obtain ⟨st, c1, m1, hmr⟩ :
        ∃ st c1 m1, makeroom map cache = (st, c1, m1) := ⟨_, _, _, rfl⟩
    have hs1 : InvSync c1 := by
      have hx := (@makeroom_inv map _ hsync).1
      rw [hmr] at hx
      exact hx
    have hlen0 : c1.mru.length ≤ cache.maxentries := by
      have hx := (@makeroom_inv map _ hsync).2
      rw [hmr] at hx
      exact hx
    have hmax : c1.maxentries = cache.maxentries := by
      have hx := makeroom_config map cache
      rw [hmr] at hx
      exact hx.2.2.2.2.1
    have hlen1 : c1.mru.length ≤ c1.maxentries := by omega
    have hcore1 : InvCore c1 := ⟨hs1, by omega⟩
    by_cases hst : st = Stat.NC_NOERR
    · subst hst
      by_cases hfr : m1.failRead (NCZ_chunkpath (NCZ_buildchunkpath c1 indices)
          c1.dimension_separator) = true
      · rw [read_miss_io hlk hmr hfr]
        exact ⟨hcore1, hmax⟩
      · have hfr2 : m1.failRead (NCZ_chunkpath (NCZ_buildchunkpath c1 indices)
            c1.dimension_separator) = false := by
          cases hx : m1.failRead (NCZ_chunkpath (NCZ_buildchunkpath c1 indices)
            c1.dimension_separator)
          · rfl
          · exact absurd hx hfr
        cases hsg : storeGet m1.objects
            (NCZ_chunkpath (NCZ_buildchunkpath c1 indices)
              c1.dimension_separator) with
        | none =>
          rw [read_miss_created hlk hmr hfr2 hsg]
          exact ⟨insert_inv hs1 hlen1, hmax⟩
        | some bytes =>
          rw [read_miss_found hlk hmr hfr2 hsg]
          exact ⟨insert_inv hs1 hlen1, hmax⟩
    · rw [read_miss_makeroom_fail hlk hmr hst]
      exact ⟨hcore1, hmax⟩

theorem flush_no_heap {cache : NCZChunkCache} {map : ZMap}
    {heap : List (Nat × NCZCacheEntry)} {id : Nat} {rest : List Nat}
    (h : heapGet heap id = none) :
    flush_loop cache map heap (id :: rest) = (Stat.NC_EINTERNAL, heap, map) := by
  unfold flush_loop
  simp only [h]

theorem flush_not_modified {cache : NCZChunkCache} {map : ZMap}
    {heap : List (Nat × NCZCacheEntry)} {id : Nat} {rest : List Nat}
    {e : NCZCacheEntry} (h : heapGet heap id = some e)
    (hm : e.modified = false) :
    flush_loop cache map heap (id :: rest) =
      flush_loop cache map (heapSet heap id { e with modified := false }) rest := by
  conv_lhs => unfold flush_loop
  simp only [h, hm, Bool.false_eq_true, if_false]

theorem flush_put_ok {cache : NCZChunkCache} {map : ZMap}
    {heap : List (Nat × NCZCacheEntry)} {id : Nat} {rest : List Nat}
    {e : NCZCacheEntry} {m2 : ZMap} (h : heapGet heap id = some e)
    (hm : e.modified = true)
    (hp : put_chunk map cache e = (Stat.NC_NOERR, m2)) :
    flush_loop cache map heap (id :: rest) =
      flush_loop cache m2 (heapSet heap id { e with modified := false }) rest := by
  conv_lhs => unfold flush_loop
  simp only [h, hm, if_true, hp]

theorem flush_put_fail {cache : NCZChunkCache} {map : ZMap}
    {heap : List (Nat × NCZCacheEntry)} {id : Nat} {rest : List Nat}
    {e : NCZCacheEntry} {st : Stat} {m2 : ZMap} (h : heapGet heap id = some e)
    (hm : e.modified = true)
    (hp : put_chunk map cache e = (st, m2)) (hst : st ≠ Stat.NC_NOERR) :
    flush_loop cache map heap (id :: rest) = (st, heap, m2) := by
  unfold flush_loop
  cases st with
  | NC_NOERR => exact absurd rfl hst
  | NC_EEMPTY => simp only [h, hm, if_true, hp]
  | NC_ENOTFOUND => simp only [h, hm, if_true, hp]
  | NC_EINVAL => simp only [h, hm, if_true, hp]
  | NC_ENOMEM => simp only [h, hm, if_true, hp]
  | NC_EIO => simp only [h, hm, if_true, hp]
  | NC_EINTERNAL => simp only [h, hm, if_true, hp]

theorem flush_loop_isSome (cache : NCZChunkCache) : ∀ (ids : List Nat)
    (map : ZMap) (heap : List (Nat × NCZCacheEntry)) (id0 : Nat),
    (heapGet heap id0).isSome = true →
    (heapGet (flush_loop cache map heap ids).2.1 id0).isSome = true := by
  intro ids
  induction ids with
  | nil => intro map heap id0 h; exact h
  | cons id rest ih =>
    intro map heap id0 h
    cases hg : heapGet heap id with
    | none =>
      rw [flush_no_heap hg]
      exact h
    | some e =>
      cases hm : e.modified with
      | false =>
        rw [flush_not_modified hg hm]
        refine ih _ _ _ ?_
        rw [heapGet_set_isSome]
        exact h
      | true =>
        obtain ⟨ps, pm, hp⟩ : ∃ ps pm, put_chunk map cache e = (ps, pm) :=
          ⟨_, _, rfl⟩
        by_cases hps : ps = Stat.NC_NOERR
        · subst hps
          rw [flush_put_ok hg hm hp]
          refine ih _ _ _ ?_
          rw [heapGet_set_isSome]
          exact h
        · rw [flush_put_fail hg hm hp hps]
          exact h

theorem flush_inv {map : ZMap} {cache : NCZChunkCache} (h : InvCore cache) :
    InvCore (NCZ_flush_chunk_cache map cache).2.1 ∧
    (NCZ_flush_chunk_cache map cache).2.1.maxentries = cache.maxentries := by
  obtain ⟨⟨hperm, hnodup, hfresh, hheap⟩, hbound⟩ := h
  refine ⟨⟨⟨hperm, hnodup, hfresh, ?_⟩, hbound⟩, rfl⟩
  intro id hid
  exact flush_loop_isSome cache cache.mru map cache.heap id (hheap id hid)

theorem execOp_inv {map : ZMap} {cache : NCZChunkCache} {op : CacheOp}
    (h : InvCore cache) (hro : op.readonly = true) :
    InvCore (execOp map cache op).1 ∧
    (execOp map cache op).1.maxentries = cache.maxentries := by
  cases op with
  | read ixs => exact read_inv h
  | write ixs => simp [CacheOp.readonly] at hro
  | flush => exact flush_inv h

theorem runOps_inv : ∀ (ops : List CacheOp) (map : ZMap)
    (cache : NCZChunkCache),
    InvCore cache → (∀ op ∈ ops, op.readonly = true) →
    InvCore (runOps map cache ops).1 ∧
    (runOps map cache ops).1.maxentries = cache.maxentries := by
  intro ops
  induction ops with
  | nil => intro map cache h _; exact ⟨h, rfl⟩
  | cons op rest ih =>
    intro map cache h hro
    have h1 := @execOp_inv map cache op h (hro op (List.mem_cons_self _ _))
    have h2 := ih (execOp map cache op).2 (execOp map cache op).1 h1.1
      (fun o ho => hro o (List.mem_cons_of_mem _ ho))
    exact ⟨h2.1, h2.2.trans h1.2⟩

/-! ### Claim C8: shape of the chunk key -/

/-- C8: `NCZ_buildchunkkey(rank, indices, separator)` returns the string
`i0<sep>i1<sep>...<sep>i{rank-1}` (the separator-join of the base-10 forms,
equal to `List.intercalate`), where each index is printed in base 10 — its
digit string denotes the index value, consists of digit characters only, and
has no leading zero — and rank 0 yields the empty string. -/
theorem C8_buildchunkkey_shape (dimsep : Char) (ixs : List Nat) :
    NCZ_buildchunkkey [] dimsep = [] ∧
    NCZ_buildchunkkey ixs dimsep = joinSep dimsep (ixs.map decRepr) ∧
    joinSep dimsep (ixs.map decRepr) =
      List.intercalate [dimsep] (ixs.map decRepr) ∧
    (∀ n ∈ ixs, decVal (decRepr n) = n ∧
      (∀ c ∈ decRepr n, c.isDigit = true) ∧
      (0 < n → (decRepr n).head? ≠ some '0')) := by
  refine ⟨rfl, buildchunkkey_eq_joinSep ixs dimsep,
    joinSep_eq_intercalate dimsep (ixs.map decRepr), ?_⟩
  intro n _
  exact ⟨decVal_decRepr n, decRepr_isDigit n, fun h => decRepr_head_ne_zero h⟩

/-- Witness for C8 at concrete inputs (rank 0 and the tuple (2, 45)). -/
theorem C8_buildchunkkey_shape_witness :
    NCZ_buildchunkkey [] '.' = [] ∧
    NCZ_buildchunkkey [2, 45] '.' = joinSep '.' ([2, 45].map decRepr) ∧
    (decVal (decRepr 45) = 45 ∧
      (∀ c ∈ decRepr 45, c.isDigit = true) ∧
      (0 < 45 → (decRepr 45).head? ≠ some '0')) ∧
    NCZ_buildchunkkey [2, 45] '.' = ['2', '.', '4', '5'] := by
  have h := C8_buildchunkkey_shape '.' [2, 45]
  exact ⟨h.1, h.2.1, h.2.2.2 45 (by decide), by decide⟩

/-! ### Claim C9: injectivity of the chunk key on same-rank tuples -/

theorem islegaldimsep_not_digit {sep : Char} (h : islegaldimsep sep = true) :
    sep.isDigit = false := by
  unfold islegaldimsep at h
  rcases Bool.or_eq_true_iff.mp h with h1 | h1
  · rw [decide_eq_true_iff] at h1
    subst h1
    rfl
  · rw [decide_eq_true_iff] at h1
    subst h1
    rfl

/-- C9: for every legal separator and same-rank index tuples a ≠ b,
the built chunk keys differ (the key codec is injective). -/
theorem C9_buildchunkkey_injective (sep : Char)
    (hsep : islegaldimsep sep = true) (a b : List Nat)
    (hlen : a.length = b.length) (hne : a ≠ b) :
    NCZ_buildchunkkey a sep ≠ NCZ_buildchunkkey b sep := by
  intro heq
  apply hne
  rw [buildchunkkey_eq_joinSep, buildchunkkey_eq_joinSep] at heq
  have hnotin : ∀ (l : List Nat), ∀ x ∈ l.map decRepr, sep ∉ x := by
    intro l x hx hmem
    obtain ⟨n, _, rfl⟩ := List.mem_map.mp hx
    have hd := decRepr_isDigit n sep hmem
    rw [islegaldimsep_not_digit hsep] at hd
    exact Bool.noConfusion hd
  have hmap : a.map decRepr = b.map decRepr :=
    joinSep_inj sep (a.map decRepr) (b.map decRepr)
      (by simp [hlen]) (hnotin a) (hnotin b) heq
  exact List.map_injective_iff.mpr (fun x y hxy => decRepr_inj hxy) hmap

/-- Witness for C9: the tuples (0, 12) and (1, 2) of rank 2 get distinct
keys with the '.' separator. -/
theorem C9_buildchunkkey_injective_witness :
    NCZ_buildchunkkey [0, 12] '.' ≠ NCZ_buildchunkkey [1, 2] '.' :=
  C9_buildchunkkey_injective '.' (by decide) [0, 12] [1, 2]
    (by decide) (by decide)

/-! ### Claim C7: reconfiguration (NCZ_adjust_var_cache) -/

/-- C7: adjust first sets maxentries to 0 and runs makeroom, emptying the
cache; it then sets maxentries to max(1, floor(budget / chunksize)) — in
particular a budget below the chunk size yields maxentries = 1 — refreshes
chunksize from the variable, and frees the fillchunk. -/
theorem C7_adjust_var_cache (map : ZMap) (cache : NCZChunkCache)
    (budget varChunksize : Nat) (h : InvCore cache) :
    (NCZ_adjust_var_cache map cache budget varChunksize).1.mru = [] ∧
    (NCZ_adjust_var_cache map cache budget varChunksize).1.xcache = [] ∧
    (NCZ_adjust_var_cache map cache budget varChunksize).1.maxentries =
      max 1 (budget / varChunksize) ∧
    (budget < varChunksize →
      (NCZ_adjust_var_cache map cache budget varChunksize).1.maxentries = 1) ∧
    (NCZ_adjust_var_cache map cache budget varChunksize).1.chunksize =
      varChunksize ∧
    (NCZ_adjust_var_cache map cache budget varChunksize).1.fillchunk = none := by
  have h0 : InvSync { cache with maxentries := 0 } := h.1
  have hlen : (makeroom map { cache with maxentries := 0 }).2.1.mru.length ≤ 0 :=
    (makeroom_inv h0).2
  have hmru : (makeroom map { cache with maxentries := 0 }).2.1.mru = [] :=
    List.eq_nil_of_length_eq_zero (by omega)
  have hperm := (@makeroom_inv map _ h0).1.1
  rw [hmru] at hperm
  have hxc : (makeroom map { cache with maxentries := 0 }).2.1.xcache = [] := by
    have hx := hperm.eq_nil
    exact List.map_eq_nil.mp hx
  have hmax : ∀ n : Nat, (if n = 0 then 1 else n) = max 1 n := by
    intro n
    by_cases hz : n = 0
    · simp [hz]
    · rw [if_neg hz]
      omega
  refine ⟨?_, ?_, ?_, ?_, ?_, ?_⟩
  · show (makeroom map { cache with maxentries := 0 }).2.1.mru = []
    exact hmru
  · show (makeroom map { cache with maxentries := 0 }).2.1.xcache = []
    exact hxc
  · show (if budget / varChunksize = 0 then 1 else budget / varChunksize) =
      max 1 (budget / varChunksize)
    exact hmax _
  · intro hlt
    show (if budget / varChunksize = 0 then 1 else budget / varChunksize) = 1
    rw [if_pos (Nat.div_eq_of_lt hlt)]
  · rfl
  · rfl

/-- Witness for C7: adjusting an (empty, well-formed) cache with budget 5 and
chunk size 2. -/
theorem C7_adjust_var_cache_witness :
    (NCZ_adjust_var_cache (testMap (fun _ => false)) (testCache 1 none)
      5 2).1.mru = [] ∧
    (NCZ_adjust_var_cache (testMap (fun _ => false)) (testCache 1 none)
      5 2).1.maxentries = max 1 (5 / 2) ∧
    (NCZ_adjust_var_cache (testMap (fun _ => false)) (testCache 1 none)
      5 2).1.chunksize = 2 ∧
    (NCZ_adjust_var_cache (testMap (fun _ => false)) (testCache 1 none)
      5 2).1.fillchunk = none := by
  have h := C7_adjust_var_cache (testMap (fun _ => false)) (testCache 1 none)
    5 2 (by decide)
  exact ⟨h.1, h.2.2.1, h.2.2.2.2.1, h.2.2.2.2.2⟩

/-! ### Claim C3: content of fabricated chunks -/

/-- Counterexample to C3 as stated: on a cache whose fillchunk is set to the
byte 0xAA (170), a read miss on an absent chunk fabricates the zero byte, not
the fillchunk byte (the FILLONREAD branch is compiled out). -/
theorem C3_counterexample :
    (testCache 2 (some [170])).fillchunk = some [170] ∧
    (NCZ_read_cache_chunk (testMap (fun _ => false))
      (testCache 2 (some [170])) [0]).1 = Stat.NC_EEMPTY ∧
    ((heapGet (NCZ_read_cache_chunk (testMap (fun _ => false))
        (testCache 2 (some [170])) [0]).2.2.1.heap 0).map
      (fun e => e.data)) = some [0] ∧
    some [0] ≠ some [170] := by
  decide

/-- C3 amended: when a read misses and the store reports the chunk absent,
the fabricated buffer content is `chunksize` zero bytes regardless of
whether fillchunk is set (the FILLONREAD copy from fillchunk is compiled
out of this source). -/
theorem C3_fabricated_zeros {map : ZMap} {cache : NCZChunkCache}
    {indices : List Nat} {c1 : NCZChunkCache} {m1 : ZMap}
    (hlk : ncxcachelookup cache.xcache (ncxcachekey indices) = none)
    (hmr : makeroom map cache = (Stat.NC_NOERR, c1, m1))
    (hfr : m1.failRead (NCZ_chunkpath (NCZ_buildchunkpath c1 indices)
      c1.dimension_separator) = false)
    (hsg : storeGet m1.objects (NCZ_chunkpath (NCZ_buildchunkpath c1 indices)
      c1.dimension_separator) = none) :
    ∃ id e, (NCZ_read_cache_chunk map cache indices).2.1 = some id ∧
      heapGet (NCZ_read_cache_chunk map cache indices).2.2.1.heap id = some e ∧
      e.data = List.replicate cache.chunksize 0 ∧
      e.data.length = cache.chunksize := by
  have hcs : c1.chunksize = cache.chunksize := by
    have hx := makeroom_config map cache
    rw [hmr] at hx
    exact hx.2.2.2.1
  rw [read_miss_created hlk hmr hfr hsg]
  refine ⟨c1.next,
    { indices := indices, hashkey := ncxcachekey indices,
      key := NCZ_buildchunkpath c1 indices, modified := !c1.no_write,
      data := List.replicate c1.chunksize 0 }, rfl, ?_, ?_, ?_⟩
  · show (if c1.next = c1.next then _ else _) = _
    rw [if_pos rfl]
  · rw [hcs]
  · simp [hcs]

/-- Witness for the amended C3 at a concrete input (fillchunk = some [170]). -/
theorem C3_fabricated_zeros_witness :
    ∃ id e, (NCZ_read_cache_chunk (testMap (fun _ => false))
        (testCache 2 (some [170])) [0]).2.1 = some id ∧
      heapGet (NCZ_read_cache_chunk (testMap (fun _ => false))
        (testCache 2 (some [170])) [0]).2.2.1.heap id = some e ∧
      e.data = List.replicate (testCache 2 (some [170])).chunksize 0 ∧
      e.data.length = (testCache 2 (some [170])).chunksize :=
  C3_fabricated_zeros rfl rfl rfl rfl

/-! ### Claim C5: NotFound is absorbed into fabrication + ChunkCreated -/

/-- C5: a store NotFound on a read miss is never propagated as an error: the
fabricated entry is inserted into both the heap-backed hash index and the
recency list, its buffer is returned to the caller together with the
ChunkCreated signal (NC_EEMPTY as a success sub-code), and the entry is
marked modified exactly when the dataset is writable (no_write = false). -/
theorem C5_notfound_absorbed {map : ZMap} {cache : NCZChunkCache}
    {indices : List Nat} {c1 : NCZChunkCache} {m1 : ZMap}
    (hlk : ncxcachelookup cache.xcache (ncxcachekey indices) = none)
    (hmr : makeroom map cache = (Stat.NC_NOERR, c1, m1))
    (hfr : m1.failRead (NCZ_chunkpath (NCZ_buildchunkpath c1 indices)
      c1.dimension_separator) = false)
    (hsg : storeGet m1.objects (NCZ_chunkpath (NCZ_buildchunkpath c1 indices)
      c1.dimension_separator) = none) :
    (NCZ_read_cache_chunk map cache indices).1 = Stat.NC_EEMPTY ∧
    (NCZ_read_cache_chunk map cache indices).2.1 = some c1.next ∧
    (∃ e, heapGet (NCZ_read_cache_chunk map cache indices).2.2.1.heap
        c1.next = some e ∧
      e.modified = !cache.no_write ∧
      (cache.no_write = true → e.modified = false) ∧
      e.data = List.replicate cache.chunksize 0) ∧
    (NCZ_read_cache_chunk map cache indices).2.2.1.mru = c1.mru ++ [c1.next] ∧
    (NCZ_read_cache_chunk map cache indices).2.2.1.xcache =
      (ncxcachekey indices, c1.next) :: c1.xcache := by
  have hcfg : sameConfig c1 cache := by
    have hx := makeroom_config map cache
    rw [hmr] at hx
    exact hx
  have hcs : c1.chunksize = cache.chunksize := hcfg.2.2.2.1
  have hnw : c1.no_write = cache.no_write := hcfg.2.2.2.2.2.2.1
  rw [read_miss_created hlk hmr hfr hsg]
  refine ⟨rfl, rfl, ?_, rfl, rfl⟩
  refine ⟨{ indices := indices, hashkey := ncxcachekey indices,
            key := NCZ_buildchunkpath c1 indices, modified := !c1.no_write,
            data := List.replicate c1.chunksize 0 }, ?_, ?_, ?_, ?_⟩
  · show (if c1.next = c1.next then _ else _) = _
    rw [if_pos rfl]
  · rw [hnw]
  · intro hro
    show (!c1.no_write) = false
    rw [hnw, hro]
    rfl
  · rw [hcs]

/-- Witness for C5 at a concrete input. -/
theorem C5_notfound_absorbed_witness :
    (NCZ_read_cache_chunk (testMap (fun _ => false))
      (testCache 2 none) [0]).1 = Stat.NC_EEMPTY ∧
    (NCZ_read_cache_chunk (testMap (fun _ => false))
      (testCache 2 none) [0]).2.1 = some (testCache 2 none).next ∧
    (∃ e, heapGet (NCZ_read_cache_chunk (testMap (fun _ => false))
        (testCache 2 none) [0]).2.2.1.heap (testCache 2 none).next = some e ∧
      e.modified = !(testCache 2 none).no_write ∧
      ((testCache 2 none).no_write = true → e.modified = false) ∧
      e.data = List.replicate (testCache 2 none).chunksize 0) ∧
    (NCZ_read_cache_chunk (testMap (fun _ => false))
      (testCache 2 none) [0]).2.2.1.mru =
        (testCache 2 none).mru ++ [(testCache 2 none).next] ∧
    (NCZ_read_cache_chunk (testMap (fun _ => false))
      (testCache 2 none) [0]).2.2.1.xcache =
        (ncxcachekey [0], (testCache 2 none).next) :: (testCache 2 none).xcache :=
  C5_notfound_absorbed rfl rfl rfl rfl

/-! ### Claim C10: failures after makeroom leave the post-makeroom state -/

/-- C10: when a read miss fails after makeroom has run (the store fetch
returns an I/O error), the in-progress entry is added to neither the hash
index nor the recency list and all its allocations are discarded — the
resulting state is exactly the post-makeroom state (so evictions makeroom
already performed remain in effect) — and the error is returned. -/
theorem C10_miss_io_cleanup {map : ZMap} {cache : NCZChunkCache}
    {indices : List Nat} {c1 : NCZChunkCache} {m1 : ZMap}
    (hlk : ncxcachelookup cache.xcache (ncxcachekey indices) = none)
    (hmr : makeroom map cache = (Stat.NC_NOERR, c1, m1))
    (hfr : m1.failRead (NCZ_chunkpath (NCZ_buildchunkpath c1 indices)
      c1.dimension_separator) = true) :
    NCZ_read_cache_chunk map cache indices = (Stat.NC_EIO, none, c1, m1) ∧
    c1.mru.length ≤ cache.mru.length := by
  constructor
  · exact read_miss_io hlk hmr hfr
  · have hx := makeroom_mru_le map cache
    rw [hmr] at hx
    exact hx

/-- Witness for C10 at a concrete input (store fails every read). -/
theorem C10_miss_io_cleanup_witness :
    NCZ_read_cache_chunk (testMapR (fun _ => true)) (testCache 1 none) [0] =
      (Stat.NC_EIO, none, testCache 1 none, testMapR (fun _ => true)) ∧
    (testCache 1 none).mru.length ≤ (testCache 1 none).mru.length :=
  C10_miss_io_cleanup rfl rfl rfl

/-! ### Claim C2: container bounds over operation sequences -/

/-- Counterexample to C2 as stated. Two independent failures on concrete runs:
(a) on a capacity-1 cache, two read misses leave 2 entries in the hash index
and the recency list (the makeroom loop only evicts while the count strictly
exceeds maxentries and runs before the insertion, so the count reaches N+1,
and makeroom returns successfully with count = maxentries, not < maxentries);
(b) a single write leaves the recency list with one entry but the hash index
empty (the write path never inserts into the hash index), so the two lengths
differ. -/
theorem C2_counterexample :
    ((runOps (testMap (fun _ => false)) (testCache 1 none)
        [CacheOp.read [0], CacheOp.read [1]]).1.xcache.length = 2 ∧
      (runOps (testMap (fun _ => false)) (testCache 1 none)
        [CacheOp.read [0], CacheOp.read [1]]).1.mru.length = 2 ∧
      (testCache 1 none).maxentries = 1) ∧
    ((runOps (testMap (fun _ => false)) (testCache 1 none)
        [CacheOp.write [0]]).1.xcache.length = 0 ∧
      (runOps (testMap (fun _ => false)) (testCache 1 none)
        [CacheOp.write [0]]).1.mru.length = 1) := by
  decide

/-- C2 amended: (i) for every cache freshly created by NCZ_create_chunk_cache
and every sequence of read/flush operations (no writes; the write path breaks
the index/list synchronisation), at every quiescent point the hash index and
the recency list have the same length, and that length is at most
maxentries + 1 (not maxentries); (ii) whenever makeroom returns NC_NOERR the
entry count is at most maxentries (not strictly below it). -/
theorem C2_amended :
    (∀ (budget chunksize ndims : Nat) (vk : List Char) (sep : Char)
        (nw : Bool) (c0 : NCZChunkCache) (ops : List CacheOp) (map : ZMap),
      NCZ_create_chunk_cache budget chunksize ndims vk sep nw = some c0 →
      (∀ op ∈ ops, op.readonly = true) →
      (runOps map c0 ops).1.xcache.length = (runOps map c0 ops).1.mru.length ∧
      (runOps map c0 ops).1.mru.length ≤ c0.maxentries + 1) ∧
    (∀ (map : ZMap) (cache : NCZChunkCache),
      (makeroom map cache).1 = Stat.NC_NOERR →
      (makeroom map cache).2.1.mru.length ≤ cache.maxentries) := by
  constructor
  · intro budget chunksize ndims vk sep nw c0 ops map hc hro
    have hc0 : InvCore c0 := by
      unfold NCZ_create_chunk_cache at hc
      by_cases hz : chunksize = 0
      · rw [if_pos hz] at hc
        exact Option.noConfusion hc
      · rw [if_neg hz] at hc
        obtain rfl := Option.some.inj hc
        exact ⟨⟨List.Perm.refl [], List.nodup_nil,
          fun id hid => absurd hid (List.not_mem_nil id),
          fun id hid => absurd hid (List.not_mem_nil id)⟩, by
            show (0 : Nat) ≤ _ + 1
            omega⟩
    have h := runOps_inv ops map c0 hc0 hro
    obtain ⟨⟨⟨hperm, _, _, _⟩, hbound⟩, hmax⟩ := h
    have hlen := hperm.length_eq
    rw [List.length_map] at hlen
    exact ⟨hlen, by omega⟩
  · intro map cache h
    exact makeroom_noerr_len h

/-- Witness for the amended C2 at concrete inputs: a capacity-1 freshly
created cache run through two read misses and a flush, and a concrete
makeroom call. -/
theorem C2_amended_witness :
    ((runOps (testMap (fun _ => false))
        ((NCZ_create_chunk_cache 1 1 1 ['v'] '.' false).getD (testCache 1 none))
        [CacheOp.read [0], CacheOp.read [1], CacheOp.flush]).1.xcache.length =
      (runOps (testMap (fun _ => false))
        ((NCZ_create_chunk_cache 1 1 1 ['v'] '.' false).getD (testCache 1 none))
        [CacheOp.read [0], CacheOp.read [1], CacheOp.flush]).1.mru.length ∧
     (runOps (testMap (fun _ => false))
        ((NCZ_create_chunk_cache 1 1 1 ['v'] '.' false).getD (testCache 1 none))
        [CacheOp.read [0], CacheOp.read [1], CacheOp.flush]).1.mru.length ≤
      ((NCZ_create_chunk_cache 1 1 1 ['v'] '.' false).getD
        (testCache 1 none)).maxentries + 1) ∧
    ((makeroom (testMap (fun _ => false)) (testCache 1 none)).1 =
        Stat.NC_NOERR →
      (makeroom (testMap (fun _ => false)) (testCache 1 none)).2.1.mru.length ≤
        (testCache 1 none).maxentries) := by
  constructor
  · exact C2_amended.1 1 1 1 ['v'] '.' false
      ((NCZ_create_chunk_cache 1 1 1 ['v'] '.' false).getD (testCache 1 none))
      [CacheOp.read [0], CacheOp.read [1], CacheOp.flush]
      (testMap (fun _ => false)) (by decide) (by decide)
  · exact C2_amended.2 (testMap (fun _ => false)) (testCache 1 none)

/-! ### Claim C4: eviction write failures in makeroom -/

theorem put_chunk_fail {map : ZMap} {cache : NCZChunkCache}
    {e : NCZCacheEntry}
    (h : map.failWrite (NCZ_chunkpath e.key cache.dimension_separator) = true) :
    put_chunk map cache e = (Stat.NC_EIO,
      { map with log := map.log ++
          [(NCZ_chunkpath e.key cache.dimension_separator, e.data)] }) := by
  unfold put_chunk nczmap_write
  rw [if_pos h]

theorem put_chunk_ok {map : ZMap} {cache : NCZChunkCache}
    {e : NCZCacheEntry}
    (h : map.failWrite (NCZ_chunkpath e.key cache.dimension_separator) = false) :
    put_chunk map cache e = (Stat.NC_NOERR,
      { map with
          objects := storePut map.objects
            (NCZ_chunkpath e.key cache.dimension_separator) e.data,
          log := map.log ++
            [(NCZ_chunkpath e.key cache.dimension_separator, e.data)] }) := by
  unfold put_chunk nczmap_write
  rw [h]
  rfl

theorem ncxcacheremove_last : ∀ {xs : List (List Nat × Nat)} {k : List Nat}
    {id : Nat}, (xs.map Prod.fst).Nodup → xs.getLast? = some (k, id) →
    ncxcacheremove xs k = (some id, xs.dropLast) := by
  intro xs
  induction xs with
  | nil => intro k id _ hl; exact Option.noConfusion hl
  | cons p t ih =>
    intro k id hnd hl
    cases t with
    | nil =>
      have hp : p = (k, id) := by
        have : some p = some (k, id) := hl
        exact Option.some.inj this
      subst hp
      show (if k = k then _ else _) = _
      rw [if_pos rfl]
      rfl
    | cons q u =>
      have hl2 : (q :: u).getLast? = some (k, id) := by
        rw [← hl]
        rfl
      have hkmem : k ∈ (q :: u).map Prod.fst := by
        have hm : (k, id) ∈ q :: u := List.mem_of_mem_getLast? hl2
        exact List.mem_map.mpr ⟨(k, id), hm, rfl⟩
      have hnd2 : (p.1 :: (q :: u).map Prod.fst).Nodup := by
        rw [List.map_cons] at hnd
        exact hnd
      have hne : p.1 ≠ k := by
        intro hpk
        exact (List.nodup_cons.mp hnd2).1 (hpk ▸ hkmem)
      have ih2 := ih (List.nodup_cons.mp hnd2).2 hl2
      show (if p.1 = k then _ else _) = _
      rw [if_neg hne]
      show ((ncxcacheremove (q :: u) k).1,
        (p.1, p.2) :: (ncxcacheremove (q :: u) k).2) = _
      rw [ih2]
      rfl

theorem heapGet_eq_none_of_not_mem : ∀ {heap : List (Nat × NCZCacheEntry)}
    {id : Nat}, id ∉ heap.map Prod.fst → heapGet heap id = none := by
  intro heap
  induction heap with
  | nil => intro id _; rfl
  | cons p t ih =>
    intro id h
    obtain ⟨i, e⟩ := p
    show (if i = id then some e else heapGet t id) = none
    rw [if_neg (fun hi => h (by simp [hi])), ih (fun hm => h (by simp [hm]))]

theorem heapGet_remove_self : ∀ {heap : List (Nat × NCZCacheEntry)} {id : Nat},
    (heap.map Prod.fst).Nodup → heapGet (heapRemove heap id) id = none := by
  intro heap
  induction heap with
  | nil => intro id _; rfl
  | cons p t ih =>
    intro id hnd
    obtain ⟨i, e⟩ := p
    show heapGet (if i = id then t else (i, e) :: heapRemove t id) id = none
    by_cases hi : i = id
    · rw [if_pos hi]
      refine heapGet_eq_none_of_not_mem ?_
      subst hi
      exact (List.nodup_cons.mp (by simpa using hnd)).1
    · rw [if_neg hi]
      show (if i = id then some e else heapGet (heapRemove t id) id) = none
      rw [if_neg hi, ih (List.nodup_cons.mp (by simpa using hnd)).2]

theorem makeroom_loop_exit {map : ZMap} {cache : NCZChunkCache} {stat : Stat}
    (h : ¬ cache.mru.length > cache.maxentries) : ∀ fuel,
    makeroom_loop fuel map cache stat = (stat, cache, map) := by
  intro fuel
  cases fuel with
  | zero => rfl
  | succ fuel => exact makeroom_loop_not_full h

/-- Counterexample to C4 as stated: a makeroom invocation that must evict two
modified entries; the first (LRU) eviction's store write fails with an I/O
error and the entry is dropped, but the second eviction's successful write
overwrites the loop's status variable, so makeroom returns NC_NOERR — the
IoError is not returned to the caller. -/
theorem C4_counterexample :
    (let e0 : NCZCacheEntry :=
      { indices := [0], hashkey := [0],
        key := { varkey := ['v'], chunkkey := ['0'] },
        modified := true, data := [5] }
    let e1 : NCZCacheEntry :=
      { indices := [1], hashkey := [1],
        key := { varkey := ['v'], chunkkey := ['1'] },
        modified := true, data := [6] }
    let c : NCZChunkCache :=
      { ndims := 1, varkey := ['v'], dimension_separator := '.',
        chunksize := 1, maxentries := 0, fillchunk := none, no_write := false,
        xcache := [([1], 1), ([0], 0)], mru := [0, 1],
        heap := [(0, e0), (1, e1)], next := 2 }
    let m : ZMap :=
      { objects := [], failRead := fun _ => false,
        failWrite := fun p => decide (p = ['v', '.', '0']), log := [] }
    m.failWrite (NCZ_chunkpath e0.key c.dimension_separator) = true ∧
    e0.modified = true ∧
    heapGet (makeroom m c).2.1.heap 0 = none ∧
    (makeroom m c).2.1.mru = [] ∧
    (makeroom m c).1 = Stat.NC_NOERR) := by
  decide

/-- C4 amended: when makeroom evicts a modified entry whose store write fails
with an I/O error, the entry is dropped (removed from the recency list, the
hash index and the heap) anyway, the failed write is not persisted, and —
provided no later eviction in the same invocation issues another store write
(here: the single-eviction case) — the IoError is returned to the caller. -/
theorem C4_eviction_io_reported {map : ZMap} {cache : NCZChunkCache}
    {k : List Nat} {id : Nat} {e : NCZCacheEntry}
    (h1 : cache.mru.length = cache.maxentries + 1)
    (h2 : cache.xcache.getLast? = some (k, id))
    (h3 : (cache.xcache.map Prod.fst).Nodup)
    (h4 : id ∈ cache.mru)
    (h5 : heapGet cache.heap id = some e)
    (h6 : (cache.heap.map Prod.fst).Nodup)
    (h7 : e.modified = true)
    (h8 : map.failWrite (NCZ_chunkpath e.key cache.dimension_separator) = true) :
    (makeroom map cache).1 = Stat.NC_EIO ∧
    (makeroom map cache).2.1.mru = removeId cache.mru id ∧
    (makeroom map cache).2.1.xcache = cache.xcache.dropLast ∧
    heapGet (makeroom map cache).2.1.heap id = none ∧
    (makeroom map cache).2.2.log = map.log ++
      [(NCZ_chunkpath e.key cache.dimension_separator, e.data)] ∧
    (makeroom map cache).2.2.objects = map.objects := by
  have hrm : ncxcacheremove cache.xcache k = (some id, cache.xcache.dropLast) :=
    ncxcacheremove_last h3 h2
  have hcond : cache.mru.length > cache.maxentries := by omega
  have heq : makeroom map cache =
      makeroom_loop (cache.maxentries + 1) map cache Stat.NC_NOERR := by
    unfold makeroom
    rw [h1]
  have hpm : (if e.modified = true then put_chunk map cache e
      else (Stat.NC_NOERR, map)) = (Stat.NC_EIO,
      { map with log := map.log ++
          [(NCZ_chunkpath e.key cache.dimension_separator, e.data)] }) := by
    rw [if_pos h7, put_chunk_fail h8]
  have hlen2 : ¬ (removeId cache.mru id).length > cache.maxentries := by
    have := removeId_length h4
    omega
  rw [heq, makeroom_loop_step hcond h2 hrm h4 h5, hpm,
    makeroom_loop_exit hlen2]
  exact ⟨rfl, rfl, rfl, heapGet_remove_self h6, rfl, rfl⟩

/-- Witness for the amended C4: a concrete single-eviction makeroom call whose
store write fails. -/
theorem C4_eviction_io_reported_witness :
    (let e0 : NCZCacheEntry :=
      { indices := [0], hashkey := [0],
        key := { varkey := ['v'], chunkkey := ['0'] },
        modified := true, data := [5] }
    let c : NCZChunkCache :=
      { ndims := 1, varkey := ['v'], dimension_separator := '.',
        chunksize := 1, maxentries := 0, fillchunk := none, no_write := false,
        xcache := [([0], 0)], mru := [0], heap := [(0, e0)], next := 1 }
    let m : ZMap :=
      { objects := [], failRead := fun _ => false,
        failWrite := fun p => decide (p = ['v', '.', '0']), log := [] }
    (makeroom m c).1 = Stat.NC_EIO ∧
    (makeroom m c).2.1.mru = removeId c.mru 0 ∧
    (makeroom m c).2.1.xcache = c.xcache.dropLast ∧
    heapGet (makeroom m c).2.1.heap 0 = none ∧
    (makeroom m c).2.2.log = m.log ++
      [(NCZ_chunkpath e0.key c.dimension_separator, e0.data)] ∧
    (makeroom m c).2.2.objects = m.objects) := by
  exact @C4_eviction_io_reported
    { objects := [], failRead := fun _ => false,
      failWrite := fun p => decide (p = ['v', '.', '0']), log := [] }
    { ndims := 1, varkey := ['v'], dimension_separator := '.',
      chunksize := 1, maxentries := 0, fillchunk := none, no_write := false,
      xcache := [([0], 0)], mru := [0],
      heap := [(0, { indices := [0], hashkey := [0],
                     key := { varkey := ['v'], chunkkey := ['0'] },
                     modified := true, data := [5] })], next := 1 }
    [0] 0
    { indices := [0], hashkey := [0],
      key := { varkey := ['v'], chunkkey := ['0'] },
      modified := true, data := [5] }
    (by decide) (by decide) (by decide) (by decide) (by decide) (by decide)
    (by decide) (by decide)

/-! ### Claim C1: the write-then-read round trip -/

/-- C1 (evaluation of the code at the failing input): on a fresh capacity-2
cache over an empty store, NCZ_write_cache_chunk returns no buffer to the
caller (the C source never assigns `*datap`), and it pushes the new entry on
the recency list without inserting it into the hash index. A read of the
same indices immediately after the write therefore misses in the hash index,
fabricates a fresh zero-filled entry (id 1, distinct from the written entry
id 0) and returns the ChunkCreated signal — not the bytes of the entry the
write created, whatever the caller may have stored in it. -/
theorem C1_write_read_roundtrip_fails :
    (let w := NCZ_write_cache_chunk (testMap (fun _ => false))
       (testCache 2 none) [0]
    let r := NCZ_read_cache_chunk w.2.2.2 w.2.2.1 [0]
    w.1 = Stat.NC_NOERR ∧
    w.2.1 = none ∧
    w.2.2.1.mru = [0] ∧
    w.2.2.1.xcache = [] ∧
    ((heapGet w.2.2.1.heap 0).map (fun e => e.modified)) = some true ∧
    r.1 = Stat.NC_EEMPTY ∧
    r.2.1 = some 1 ∧
    ((heapGet r.2.2.1.heap 1).map (fun e => e.data)) =
      some (List.replicate 1 0)) := by
  decide

/-! ### Claim C6: helper lemmas about flushing -/

theorem clear_of_not_modified {e : NCZCacheEntry} (h : e.modified = false) :
    { e with modified := false } = e := by
  cases e
  simp only at h
  rw [h]

theorem heapSet_self : ∀ {heap : List (Nat × NCZCacheEntry)} {id : Nat}
    {e : NCZCacheEntry}, heapGet heap id = some e → heapSet heap id e = heap := by
  intro heap
  induction heap with
  | nil => intro id e h; exact Option.noConfusion h
  | cons p t ih =>
    intro id e h
    obtain ⟨i, e0⟩ := p
    have h2 : (if i = id then some e0 else heapGet t id) = some e := h
    show (if i = id then (i, e) :: t else (i, e0) :: heapSet t id e) = _
    by_cases hi : i = id
    · rw [if_pos hi] at h2 ⊢
      rw [Option.some.inj h2]
    · rw [if_neg hi] at h2
      rw [if_neg hi, ih h2]

theorem flushCalls_nil (cache : NCZChunkCache)
    (heap : List (Nat × NCZCacheEntry)) : flushCalls cache heap [] = [] := rfl

theorem flushCalls_cons_not_modified {cache : NCZChunkCache}
    {heap : List (Nat × NCZCacheEntry)} {id : Nat} {ids : List Nat}
    {e : NCZCacheEntry} (hg : heapGet heap id = some e)
    (hm : e.modified = false) :
    flushCalls cache heap (id :: ids) = flushCalls cache heap ids := by
  unfold flushCalls
  rw [List.filterMap_cons]
  simp only [hg, hm, Bool.false_eq_true, if_false]

theorem flushCalls_cons_modified {cache : NCZChunkCache}
    {heap : List (Nat × NCZCacheEntry)} {id : Nat} {ids : List Nat}
    {e : NCZCacheEntry} (hg : heapGet heap id = some e)
    (hm : e.modified = true) :
    flushCalls cache heap (id :: ids) =
      (NCZ_chunkpath e.key cache.dimension_separator, e.data) ::
        flushCalls cache heap ids := by
  unfold flushCalls
  rw [List.filterMap_cons]
  simp only [hg, hm, if_true]

theorem flushCalls_cons_none {cache : NCZChunkCache}
    {heap : List (Nat × NCZCacheEntry)} {id : Nat} {ids : List Nat}
    (hg : heapGet heap id = none) :
    flushCalls cache heap (id :: ids) = flushCalls cache heap ids := by
  unfold flushCalls
  rw [List.filterMap_cons]
  simp only [hg]

theorem flushCalls_congr {cache : NCZChunkCache}
    {h1 h2 : List (Nat × NCZCacheEntry)} : ∀ {ids : List Nat},
    (∀ id ∈ ids, heapGet h1 id = heapGet h2 id) →
    flushCalls cache h1 ids = flushCalls cache h2 ids := by
  intro ids
  induction ids with
  | nil => intro _; rfl
  | cons id rest ih =>
    intro h
    have hid := h id (List.mem_cons_self _ _)
    have ht := ih (fun x hx => h x (List.mem_cons_of_mem _ hx))
    cases hg2 : heapGet h2 id with
    | none =>
      rw [flushCalls_cons_none (hid.trans hg2), flushCalls_cons_none hg2, ht]
    | some e =>
      cases hm : e.modified with
      | false =>
        rw [flushCalls_cons_not_modified (hid.trans hg2) hm,
          flushCalls_cons_not_modified hg2 hm, ht]
      | true =>
        rw [flushCalls_cons_modified (hid.trans hg2) hm,
          flushCalls_cons_modified hg2 hm, ht]

theorem put_chunk_failWrite (map : ZMap) (cache : NCZChunkCache)
    (e : NCZCacheEntry) : (put_chunk map cache e).2.failWrite = map.failWrite := by
  unfold put_chunk nczmap_write
  by_cases h : map.failWrite
      (NCZ_chunkpath e.key cache.dimension_separator) = true
  · rw [if_pos h]
  · rw [if_neg h]

theorem flush_loop_spec (cache : NCZChunkCache) : ∀ (ids : List Nat)
    (map : ZMap) (heap : List (Nat × NCZCacheEntry)),
    ids.Nodup →
    (∀ id ∈ ids, (heapGet heap id).isSome = true) →
    ∃ k, k ≤ ids.length ∧
      ((flush_loop cache map heap ids).1 = Stat.NC_NOERR ↔ k = ids.length) ∧
      (∀ j (hj : j < ids.length), j < k →
        heapGet (flush_loop cache map heap ids).2.1 (ids.get ⟨j, hj⟩) =
          (heapGet heap (ids.get ⟨j, hj⟩)).map
            (fun e => { e with modified := false })) ∧
      (∀ j (hj : j < ids.length), k ≤ j →
        heapGet (flush_loop cache map heap ids).2.1 (ids.get ⟨j, hj⟩) =
          heapGet heap (ids.get ⟨j, hj⟩)) ∧
      (∀ id2, id2 ∉ ids →
        heapGet (flush_loop cache map heap ids).2.1 id2 = heapGet heap id2) ∧
      ((flush_loop cache map heap ids).1 ≠ Stat.NC_NOERR →
        (flush_loop cache map heap ids).1 = Stat.NC_EIO ∧
        ∃ (hk : k < ids.length) (e : NCZCacheEntry),
          heapGet heap (ids.get ⟨k, hk⟩) = some e ∧ e.modified = true ∧
          map.failWrite (NCZ_chunkpath e.key cache.dimension_separator) = true) ∧
      (flush_loop cache map heap ids).2.2.log = map.log ++
        flushCalls cache heap (ids.take
          (if (flush_loop cache map heap ids).1 = Stat.NC_NOERR then k
            else k + 1)) ∧
      (flush_loop cache map heap ids).2.2.failWrite = map.failWrite := by
  intro ids
  induction ids with
  | nil =>
    intro map heap _ _
    refine ⟨0, le_refl _, ⟨fun _ => rfl, fun _ => rfl⟩, ?_, ?_, ?_, ?_, ?_, rfl⟩
    · intro j hj _
      exact absurd hj (by simp)
    · intro j hj _
      exact absurd hj (by simp)
    · intro id2 _
      rfl
    · intro hne
      exact absurd rfl hne
    · show map.log = map.log ++ flushCalls cache heap []
      rw [flushCalls_nil]
      rw [List.append_nil]
  | cons id rest ih =>
    intro map heap hnd hhp
    have hnd2 := List.nodup_cons.mp hnd
    obtain ⟨e, hg⟩ : ∃ e, heapGet heap id = some e := by
      have := hhp id (List.mem_cons_self _ _)
      cases hx : heapGet heap id with
      | none => rw [hx] at this; exact Bool.noConfusion this
      | some e => exact ⟨e, rfl⟩
    cases hm : e.modified with
    | false =>
      have hsame : { e with modified := false } = e := clear_of_not_modified hm
      have hset : heapSet heap id { e with modified := false } = heap := by
        rw [hsame]
        exact heapSet_self hg
      have hstep := @flush_not_modified cache map heap id rest e hg hm
      rw [hset] at hstep
      obtain ⟨k, hk, hiff, hproc, hunproc, hout, herr, hlog, hfw⟩ :=
        ih map heap hnd2.2 (fun x hx => hhp x (List.mem_cons_of_mem _ hx))
      refine ⟨k + 1, by simpa using Nat.succ_le_succ hk, ?_, ?_, ?_, ?_, ?_,
        ?_, ?_⟩
      · rw [hstep]
        constructor
        · intro hs
          have := hiff.mp hs
          simp [this]
        · intro hlen
          exact hiff.mpr (by simpa using hlen)
      · intro j hj hjk
        rw [hstep]
        cases j with
        | zero =>
          show heapGet (flush_loop cache map heap rest).2.1 id =
            (heapGet heap id).map (fun e => { e with modified := false })
          rw [hout id hnd2.1, hg]
          show some e = some { e with modified := false }
          rw [hsame]
        | succ j2 =>
          exact hproc j2 (by simpa using hj) (by omega)
      · intro j hj hjk
        rw [hstep]
        cases j with
        | zero => exact absurd hjk (by omega)
        | succ j2 =>
          exact hunproc j2 (by simpa using hj) (by omega)
      · intro id2 hid2
        rw [hstep]
        exact hout id2 (fun hx => hid2 (List.mem_cons_of_mem _ hx))
      · intro hne
        rw [hstep] at hne ⊢
        obtain ⟨hs, hkk, e2, hge2, hme2, hfwe2⟩ := herr hne
        refine ⟨hs, by simp only [List.length_cons]; omega, e2, ?_, hme2, hfwe2⟩
        show heapGet heap (rest.get ⟨k, hkk⟩) = some e2
        exact hge2
      · rw [hstep]
        rw [hlog]
        congr 1
        by_cases hs : (flush_loop cache map heap rest).1 = Stat.NC_NOERR
        · rw [if_pos hs, if_pos hs, List.take_succ_cons,
            flushCalls_cons_not_modified hg hm]
        · rw [if_neg hs, if_neg hs, List.take_succ_cons,
            flushCalls_cons_not_modified hg hm]
      · rw [hstep]
        exact hfw
    | true =>
      by_cases hfwp : map.failWrite
          (NCZ_chunkpath e.key cache.dimension_separator) = true
      · have hp := put_chunk_fail hfwp
        have hstep := @flush_put_fail cache map heap id rest e _ _ hg hm hp
          (fun hx => Stat.noConfusion hx)
        refine ⟨0, by omega, ?_, ?_, ?_, ?_, ?_, ?_, ?_⟩
        · rw [hstep]
          constructor
          · intro hs
            exact absurd hs (fun hx => Stat.noConfusion hx)
          · intro hlen
            exact absurd hlen.symm (Nat.succ_ne_zero _)
        · intro j hj hjk
          exact absurd hjk (by omega)
        · intro j hj _
          rw [hstep]
        · intro id2 _
          rw [hstep]
        · intro _
          rw [hstep]
          refine ⟨rfl, by simp, e, ?_, hm, hfwp⟩
          show heapGet heap id = some e
          exact hg
        · rw [hstep]
          show map.log ++ [_] = _
          rw [if_neg (fun hx => Stat.noConfusion hx), List.take_succ_cons,
            List.take_zero, flushCalls_cons_modified hg hm, flushCalls_nil]
        · rw [hstep]
      · have hfwp2 : map.failWrite
            (NCZ_chunkpath e.key cache.dimension_separator) = false := by
          cases hx : map.failWrite
              (NCZ_chunkpath e.key cache.dimension_separator)
          · rfl
          · exact absurd hx hfwp
        have hp := put_chunk_ok hfwp2
        have hstep := @flush_put_ok cache map heap id rest e _ hg hm hp
        have hhp2 : ∀ x ∈ rest,
            (heapGet (heapSet heap id { e with modified := false }) x).isSome =
              true := by
          intro x hx
          rw [heapGet_set_isSome]
          exact hhp x (List.mem_cons_of_mem _ hx)
        obtain ⟨k, hk, hiff, hproc, hunproc, hout, herr, hlog, hfw⟩ :=
          ih { map with
                objects := storePut map.objects
                  (NCZ_chunkpath e.key cache.dimension_separator) e.data,
                log := map.log ++
                  [(NCZ_chunkpath e.key cache.dimension_separator, e.data)] }
            (heapSet heap id { e with modified := false }) hnd2.2 hhp2
      
        have hne_rest : ∀ x ∈ rest, x ≠ id := fun x hx hxe =>
          hnd2.1 (hxe ▸ hx)
        have hgets : ∀ x ∈ rest,
            heapGet (heapSet heap id { e with modified := false }) x =
              heapGet heap x := fun x hx =>
          heapGet_set_ne _ (hne_rest x hx)
        refine ⟨k + 1, by simpa using Nat.succ_le_succ hk, ?_, ?_, ?_, ?_, ?_,
          ?_, ?_⟩
        · rw [hstep]
          constructor
          · intro hs
            have := hiff.mp hs
            simp [this]
          · intro hlen
            exact hiff.mpr (by simpa using hlen)
        · intro j hj hjk
          rw [hstep]
          cases j with
          | zero =>
            show heapGet (flush_loop cache _ _ rest).2.1 id =
              (heapGet heap id).map (fun e => { e with modified := false })
            rw [hout id hnd2.1, heapGet_set_of_get { e with modified := false }
              hg, hg]
            rfl
          | succ j2 =>
            have hj2 : j2 < rest.length := by simpa using hj
            have := hproc j2 hj2 (by omega)
            rw [hgets (rest.get ⟨j2, hj2⟩) (rest.get_mem _ _)] at this
            exact this
        · intro j hj hjk
          rw [hstep]
          cases j with
          | zero => exact absurd hjk (by omega)
          | succ j2 =>
            have hj2 : j2 < rest.length := by simpa using hj
            have := hunproc j2 hj2 (by omega)
            rw [hgets (rest.get ⟨j2, hj2⟩) (rest.get_mem _ _)] at this
            exact this
        · intro id2 hid2
          rw [hstep]
          have hne2 : id2 ≠ id := fun hx =>
            hid2 (hx ▸ List.mem_cons_self _ _)
          rw [hout id2 (fun hx => hid2 (List.mem_cons_of_mem _ hx)),
            heapGet_set_ne _ hne2]
        · intro hne
          rw [hstep] at hne ⊢
          obtain ⟨hs, hkk, e2, hge2, hme2, hfwe2⟩ := herr hne
          refine ⟨hs, by simp only [List.length_cons]; omega, e2, ?_, hme2, ?_⟩
          · show heapGet heap (rest.get ⟨k, hkk⟩) = some e2
            rw [← hgets (rest.get ⟨k, hkk⟩) (rest.get_mem _ _)]
            exact hge2
          · exact hfwe2
        · rw [hstep, hlog]
          by_cases hs : (flush_loop cache
              { map with
                  objects := storePut map.objects
                    (NCZ_chunkpath e.key cache.dimension_separator) e.data,
                  log := map.log ++
                    [(NCZ_chunkpath e.key cache.dimension_separator, e.data)] }
              (heapSet heap id { e with modified := false }) rest).1 =
              Stat.NC_NOERR
          · rw [if_pos hs, if_pos hs, List.take_succ_cons,
              flushCalls_cons_modified hg hm,
              flushCalls_congr (fun x hx => hgets x (List.take_subset _ _ hx))]
            show map.log ++ [(NCZ_chunkpath e.key cache.dimension_separator,
              e.data)] ++ flushCalls cache heap (rest.take k) = _
            rw [List.append_assoc]
            rfl
          · rw [if_neg hs, if_neg hs, List.take_succ_cons,
              flushCalls_cons_modified hg hm,
              flushCalls_congr (fun x hx => hgets x (List.take_subset _ _ hx))]
            show map.log ++ [(NCZ_chunkpath e.key cache.dimension_separator,
              e.data)] ++ flushCalls cache heap (rest.take (k + 1)) = _
            rw [List.append_assoc]
            rfl
        · rw [hstep, hfw]

/-- C6: flush iterates over the cache's entries in mru order without evicting
any (the recency list, hash index and capacity are untouched); there is a cut
point k such that every entry before it was processed — each modified one had
its bytes written to the store (the store's write log grows by exactly the
calls for the modified entries among them) and its modified flag cleared —
flush returns NC_NOERR iff all entries were processed, and on the first
failing store write it stops with NC_EIO: the failing entry is modified and
its path is one the store fails, and every entry at or after the cut keeps
its heap state, in particular its modified flag. -/
theorem C6_flush_semantics (map : ZMap) (cache : NCZChunkCache)
    (hnd : cache.mru.Nodup)
    (hhp : ∀ id ∈ cache.mru, (heapGet cache.heap id).isSome = true) :
    (NCZ_flush_chunk_cache map cache).2.1.mru = cache.mru ∧
    (NCZ_flush_chunk_cache map cache).2.1.xcache = cache.xcache ∧
    (NCZ_flush_chunk_cache map cache).2.1.maxentries = cache.maxentries ∧
    ∃ k, k ≤ cache.mru.length ∧
      ((NCZ_flush_chunk_cache map cache).1 = Stat.NC_NOERR ↔
        k = cache.mru.length) ∧
      (∀ j (hj : j < cache.mru.length), j < k →
        heapGet (NCZ_flush_chunk_cache map cache).2.1.heap
            (cache.mru.get ⟨j, hj⟩) =
          (heapGet cache.heap (cache.mru.get ⟨j, hj⟩)).map
            (fun e => { e with modified := false })) ∧
      (∀ j (hj : j < cache.mru.length), k ≤ j →
        heapGet (NCZ_flush_chunk_cache map cache).2.1.heap
            (cache.mru.get ⟨j, hj⟩) =
          heapGet cache.heap (cache.mru.get ⟨j, hj⟩)) ∧
      ((NCZ_flush_chunk_cache map cache).1 ≠ Stat.NC_NOERR →
        (NCZ_flush_chunk_cache map cache).1 = Stat.NC_EIO ∧
        ∃ (hk : k < cache.mru.length) (e : NCZCacheEntry),
          heapGet cache.heap (cache.mru.get ⟨k, hk⟩) = some e ∧
          e.modified = true ∧
          map.failWrite (NCZ_chunkpath e.key cache.dimension_separator) =
            true) ∧
      (NCZ_flush_chunk_cache map cache).2.2.log = map.log ++
        flushCalls cache cache.heap (cache.mru.take
          (if (NCZ_flush_chunk_cache map cache).1 = Stat.NC_NOERR then k
            else k + 1)) := by
  obtain ⟨k, hk, hiff, hproc, hunproc, _, herr, hlog, _⟩ :=
    flush_loop_spec cache cache.mru map cache.heap hnd hhp
  exact ⟨rfl, rfl, rfl, k, hk, hiff, hproc, hunproc, herr, hlog⟩

/-- Witness for C6: flushing a concrete cache with two modified entries whose
first store write fails. -/
theorem C6_flush_semantics_witness :
    (let e0 : NCZCacheEntry :=
      { indices := [0], hashkey := [0],
        key := { varkey := ['v'], chunkkey := ['0'] },
        modified := true, data := [5] }
    let e1 : NCZCacheEntry :=
      { indices := [1], hashkey := [1],
        key := { varkey := ['v'], chunkkey := ['1'] },
        modified := true, data := [6] }
    let c : NCZChunkCache :=
      { ndims := 1, varkey := ['v'], dimension_separator := '.',
        chunksize := 1, maxentries := 2, fillchunk := none, no_write := false,
        xcache := [([1], 1), ([0], 0)], mru := [0, 1],
        heap := [(0, e0), (1, e1)], next := 2 }
    let m : ZMap :=
      { objects := [], failRead := fun _ => false,
        failWrite := fun p => decide (p = ['v', '.', '0']), log := [] }
    (NCZ_flush_chunk_cache m c).2.1.mru = c.mru ∧
    (NCZ_flush_chunk_cache m c).2.1.xcache = c.xcache ∧
    (NCZ_flush_chunk_cache m c).2.1.maxentries = c.maxentries ∧
    ∃ k, k ≤ c.mru.length ∧
      ((NCZ_flush_chunk_cache m c).1 = Stat.NC_NOERR ↔ k = c.mru.length) ∧
      (∀ j (hj : j < c.mru.length), j < k →
        heapGet (NCZ_flush_chunk_cache m c).2.1.heap (c.mru.get ⟨j, hj⟩) =
          (heapGet c.heap (c.mru.get ⟨j, hj⟩)).map
            (fun e => { e with modified := false })) ∧
      (∀ j (hj : j < c.mru.length), k ≤ j →
        heapGet (NCZ_flush_chunk_cache m c).2.1.heap (c.mru.get ⟨j, hj⟩) =
          heapGet c.heap (c.mru.get ⟨j, hj⟩)) ∧
      ((NCZ_flush_chunk_cache m c).1 ≠ Stat.NC_NOERR →
        (NCZ_flush_chunk_cache m c).1 = Stat.NC_EIO ∧
        ∃ (hk : k < c.mru.length) (e : NCZCacheEntry),
          heapGet c.heap (c.mru.get ⟨k, hk⟩) = some e ∧
          e.modified = true ∧
          m.failWrite (NCZ_chunkpath e.key c.dimension_separator) = true) ∧
      (NCZ_flush_chunk_cache m c).2.2.log = m.log ++
        flushCalls c c.heap (c.mru.take
          (if (NCZ_flush_chunk_cache m c).1 = Stat.NC_NOERR then k
            else k + 1))) := by
  exact C6_flush_semantics _ _ (by decide) (by decide)

end NCZX
